import Mathlib

/-! ghostredact: the redaction engine (`internal/redact/redact.go`)

A shallow embedding of the Go package `redact` and the properties of its
planner (`NewRedactor`), its card validator (`onlyDigits`, `luhnOK`), its
replacement strategy (`replace`) and its engine loop (`RedactString`,
`Counts`).

Modelling conventions.

* A Go `string` is a finite sequence of bytes: `GoString := List Nat`, every
  element below 256.  `len(s)` is `List.length`, `s[i]` is the i-th element,
  `s[a:b]` is `take`/`drop`.  Byte arithmetic is written with an explicit
  `% 256`.
* A Go `map[string]V` is an association list with `mapGet`/`mapSet`; a
  `map[string]bool` that only ever stores `true` is the list of its keys.
* `Config.Custom` is the list of the map's entries *in the order in which
  `range` enumerates them*.  Go leaves that order unspecified, so two lists
  that are permutations of each other stand for the same map value.
* What the Go standard library decides (whether a regular expression
  compiles, `%q` quoting, SHA-256, upper-casing beyond ASCII) is supplied
  through the record `Lib`; the matches that the regular-expression engine
  finds are supplied through a `Matcher`.
* A run-time panic is the value `none`. The map `counts` of an engine is never
  nil here, as in every engine that `NewRedactor` returns.
-/

namespace Redact

/-! ## Strings -/

/-- A Go string: its bytes. -/
abbrev GoString := List Nat

/-- The bytes of an ASCII string literal of the source. -/
def str (s : String) : GoString := s.toList.map Char.toNat

/-- Test that `p` is an initial segment of `s`. -/
def startsWith : GoString → GoString → Bool
  | [], _ => true
  | _ :: _, [] => false
  | a :: p, b :: s => a == b && startsWith p s

/-- The UTF-8 encodings of the runes for which Go's `unicode.IsSpace` holds:
tab, LF, VT, FF, CR, space, U+0085, U+00A0, U+1680, U+2000..U+200A, U+2028,
U+2029, U+202F, U+205F, U+3000. -/
def spaceRunes : List GoString :=
  [[9], [10], [11], [12], [13], [32], [0xC2, 0x85], [0xC2, 0xA0], [0xE1, 0x9A, 0x80],
   [0xE2, 0x80, 0x80], [0xE2, 0x80, 0x81], [0xE2, 0x80, 0x82], [0xE2, 0x80, 0x83],
   [0xE2, 0x80, 0x84], [0xE2, 0x80, 0x85], [0xE2, 0x80, 0x86], [0xE2, 0x80, 0x87],
   [0xE2, 0x80, 0x88], [0xE2, 0x80, 0x89], [0xE2, 0x80, 0x8A], [0xE2, 0x80, 0xA8],
   [0xE2, 0x80, 0xA9], [0xE2, 0x80, 0xAF], [0xE2, 0x81, 0x9F], [0xE3, 0x80, 0x80]]

/-- Number of bytes of the white-space rune that `s` starts with, looked up in
`table`; 0 when `s` starts with none. -/
def spaceWidth (table : List GoString) (s : GoString) : Nat :=
  match table.find? (fun e => startsWith e s) with
  | some e => e.length
  | none => 0

/-- Strip leading white-space runes, at most `fuel` of them. -/
def trimLeftN (table : List GoString) : Nat → GoString → GoString
  | 0, s => s
  | fuel + 1, s =>
    match spaceWidth table s with
    | 0 => s
    | w + 1 => trimLeftN table fuel (s.drop (w + 1))

/-- Go `strings.TrimLeftFunc(s, unicode.IsSpace)`. -/
def TrimLeft (s : GoString) : GoString := trimLeftN spaceRunes s.length s

/-- Go `strings.TrimRightFunc(s, unicode.IsSpace)`: the same scan over the
reversed bytes, against the reversed encodings. -/
def TrimRight (s : GoString) : GoString :=
  (trimLeftN (spaceRunes.map List.reverse) s.length s.reverse).reverse

/-- Go `strings.TrimSpace`. -/
def TrimSpace (s : GoString) : GoString := TrimRight (TrimLeft s)

/-- Go `strings.Split(s, sep)` for a one-byte separator: the pieces between
the separators; an input without a separator (the empty string too) gives one
piece. -/
def Split (s : GoString) (sep : Nat) : List GoString :=
  match s with
  | [] => [[]]
  | b :: rest =>
    if b = sep then [] :: Split rest sep
    else
      match Split rest sep with
      | [] => [[b]]
      | piece :: pieces => (b :: piece) :: pieces

/-- Go `strings.Index(s, sep)` for a one-byte `sep`: the index of the first
occurrence, or -1. -/
def Index (s : GoString) (sep : Nat) : Int :=
  if s.indexOf sep < s.length then (s.indexOf sep : Int) else -1

/-- Go `strings.Repeat(string(b), count)`; `none` stands for the panic on a
negative count. -/
def Repeat (b : Nat) (count : Int) : Option GoString :=
  if count < 0 then none else some (List.replicate count.toNat b)

/-- The slice expression `s[:hi]`; `none` stands for the out-of-range panic. -/
def sliceTo (s : GoString) (hi : Int) : Option GoString :=
  if 0 ≤ hi ∧ hi ≤ s.length then some (s.take hi.toNat) else none

/-- The slice expression `s[lo:]`; `none` stands for the out-of-range panic. -/
def sliceFrom (s : GoString) (lo : Int) : Option GoString :=
  if 0 ≤ lo ∧ lo ≤ s.length then some (s.drop lo.toNat) else none

/-! ### Runes -/

/-- The Unicode replacement character, Go `utf8.RuneError`. -/
def runeError : Nat := 0xFFFD

/-- Continuation byte test. -/
def isCont (b : Nat) : Bool := 0x80 ≤ b && b ≤ 0xBF

/-- Go `utf8.DecodeRuneInString` on a non-empty string: the rune and its width;
an invalid encoding gives `(runeError, 1)`. -/
def decodeRune : GoString → Nat × Nat
  | [] => (runeError, 0)
  | b0 :: rest =>
    if b0 < 0x80 then (b0, 1)
    else if 0xC2 ≤ b0 ∧ b0 ≤ 0xDF then
      match rest with
      | b1 :: _ => if isCont b1 then ((b0 % 32) * 64 + b1 % 64, 2) else (runeError, 1)
      | _ => (runeError, 1)
    else if 0xE0 ≤ b0 ∧ b0 ≤ 0xEF then
      match rest with
      | b1 :: b2 :: _ =>
        let lo := if b0 = 0xE0 then 0xA0 else 0x80
        let hi := if b0 = 0xED then 0x9F else 0xBF
        if lo ≤ b1 ∧ b1 ≤ hi ∧ isCont b2 then
          ((b0 % 16) * 4096 + (b1 % 64) * 64 + b2 % 64, 3)
        else (runeError, 1)
      | _ => (runeError, 1)
    else if 0xF0 ≤ b0 ∧ b0 ≤ 0xF4 then
      match rest with
      | b1 :: b2 :: b3 :: _ =>
        let lo := if b0 = 0xF0 then 0x90 else 0x80
        let hi := if b0 = 0xF4 then 0x8F else 0xBF
        if lo ≤ b1 ∧ b1 ≤ hi ∧ isCont b2 ∧ isCont b3 then
          ((b0 % 8) * 262144 + (b1 % 64) * 4096 + (b2 % 64) * 64 + b3 % 64, 4)
        else (runeError, 1)
      | _ => (runeError, 1)
    else (runeError, 1)

/-- The runes of a string, as `for _, r := range s` and `[]rune(s)` produce
them, decoding at most `fuel` runes. -/
def runesN : Nat → GoString → List Nat
  | 0, _ => []
  | _, [] => []
  | fuel + 1, b :: rest =>
    let d := decodeRune (b :: rest)
    d.1 :: runesN fuel (rest.drop (d.2 - 1))

/-- The runes of a string. -/
def runes (s : GoString) : List Nat := runesN s.length s

/-- Go `utf8.AppendRune`: the UTF-8 encoding of one rune; surrogates and
values beyond U+10FFFF are encoded as `runeError`. -/
def encodeRune (r : Nat) : GoString :=
  if r < 0x80 then [r]
  else if r < 0x800 then [0xC0 + r / 64, 0x80 + r % 64]
  else if (0xD800 ≤ r ∧ r ≤ 0xDFFF) ∨ 0x10FFFF < r then [0xEF, 0xBF, 0xBD]
  else if r < 0x10000 then [0xE0 + r / 4096, 0x80 + (r / 64) % 64, 0x80 + r % 64]
  else [0xF0 + r / 262144, 0x80 + (r / 4096) % 64, 0x80 + (r / 64) % 64, 0x80 + r % 64]

/-- The conversion `string(runes)`. -/
def ofRunes (rs : List Nat) : GoString := rs.flatMap encodeRune

/-! ## Maps -/

/-- The lookup `m[k]` with its `ok` flag. -/
def mapGet {β : Type} (m : List (GoString × β)) (k : GoString) : Option β :=
  match m with
  | [] => none
  | (k1, v) :: rest => if k1 = k then some v else mapGet rest k

/-- The assignment `m[k] = v`. -/
def mapSet {β : Type} (m : List (GoString × β)) (k : GoString) (v : β) : List (GoString × β) :=
  match m with
  | [] => [(k, v)]
  | (k1, v1) :: rest => if k1 = k then (k, v) :: rest else (k1, v1) :: mapSet rest k v

/-- The assignment `set[k] = true` on a `map[string]bool` used as a set. -/
def setAdd (set : List GoString) (k : GoString) : List GoString :=
  if k ∈ set then set else set ++ [k]

/-! ## Library -/

/-- What the engine takes from the Go standard library. -/
structure Lib where
  /-- The verdict of `regexp.Compile` on an expression: `none` when it compiles,
  otherwise the text of the error. -/
  compileErr : GoString → Option GoString
  /-- The verb `%q` of `fmt` (`strconv.Quote`). -/
  quote : GoString → GoString
  /-- The digest `sha256.Sum256`. -/
  sum256 : GoString → GoString
  /-- The result of `strings.ToUpper` on a string that has a non-ASCII byte. -/
  upperUnicode : GoString → GoString

/-- Go `strings.ToUpper`: an ASCII string has its letters a..z shifted to A..Z;
any other string goes through the Unicode tables. -/
def ToUpper (L : Lib) (s : GoString) : GoString :=
  if s.all (fun b => b < 0x80) then s.map (fun b => if 97 ≤ b ∧ b ≤ 122 then b - 32 else b)
  else L.upperUnicode s

/-- One lower-case hexadecimal digit. -/
def hexDigit (n : Nat) : Nat := if n < 10 then 48 + n else 87 + n

/-- Go `hex.EncodeToString`. -/
def hexEncode (bs : GoString) : GoString := bs.flatMap (fun b => [hexDigit (b / 16), hexDigit (b % 16)])

/-! ## Data model -/

/-- A compiled `*regexp.Regexp`, identified by the expression it was compiled
from. -/
structure Regexp where
  src : GoString
deriving DecidableEq, Repr

/-- The Go struct `Config`. `Custom` lists the entries of the map in the order
in which `range` enumerates them; a nil map is the empty list. -/
structure Config where
  Mode : GoString
  Salt : GoString
  Types : GoString
  Locale : GoString
  Custom : List (GoString × GoString)
deriving DecidableEq, Repr

/-- The Go struct `Redactor`. The counters only ever grow from zero, one match
at a time, so they are natural numbers here. -/
structure Redactor where
  cfg : Config
  patterns : List (GoString × Regexp)
  order : List GoString
  counts : List (GoString × Nat)
deriving DecidableEq, Repr

/-- Go `regexp.MustCompile` on a literal of the source. -/
def MustCompile (src : String) : Regexp := ⟨str src⟩

/-- The registry of all known detectors, `all` in `NewRedactor`. -/
def all : List (GoString × Regexp) :=
  [(str "email", MustCompile "(?i)\\b[A-Z0-9._%+\\-]+@[A-Z0-9.\\-]+\\.[A-Z]\x7b2,\x7d\\b"),
   (str "phone", MustCompile "\\b(?:\\+?\\d\x7b1,3\x7d[\\s\\-.]?)?(?:\\(?\\d\x7b2,4\x7d\\)?[\\s\\-.]?)?\\d\x7b3,5\x7d[\\s\\-.]?\\d\x7b4\x7d\\b"),
   (str "cc", MustCompile "\\b(?:\\d[ -]*?)\x7b13,19\x7d\\b"),
   (str "ipv4", MustCompile "\\b(?:(?:25[0-5]|2[0-4]\\d|1?\\d?\\d)\\.)\x7b3\x7d(?:25[0-5]|2[0-4]\\d|1?\\d?\\d)\\b"),
   (str "ipv6", MustCompile "\\b(?:[A-F0-9]\x7b1,4\x7d:)\x7b7\x7d[A-F0-9]\x7b1,4\x7d\\b"),
   (str "iban", MustCompile "\\b[A-Z]\x7b2\x7d\\d\x7b2\x7d[A-Z0-9]\x7b11,30\x7d\\b"),
   (str "cpf", MustCompile "\\b\\d\x7b3\x7d\\.\\d\x7b3\x7d\\.\\d\x7b3\x7d-\\d\x7b2\x7d\\b"),
   (str "cnpj", MustCompile "\\b\\d\x7b2\x7d\\.\\d\x7b3\x7d\\.\\d\x7b3\x7d/\\d\x7b4\x7d-\\d\x7b2\x7d\\b"),
   (str "cep", MustCompile "\\b\\d\x7b5\x7d-?\\d\x7b3\x7d\\b"),
   (str "rg", MustCompile "\\b\\d\x7b1,2\x7d\\.\\d\x7b3\x7d\\.\\d\x7b3\x7d-\\d\x7b1\x7d\\b")]

/-- The international default set. -/
def defaultSet : List GoString :=
  [str "email", str "cc", str "phone", str "ipv4", str "ipv6", str "iban"]

/-- The locale packs. -/
def packs : List (GoString × List GoString) :=
  [(str "br", [str "cpf", str "cnpj", str "cep", str "rg"])]

/-- The redaction order of the known kinds. -/
def baseOrder : List GoString :=
  [str "email", str "cc", str "phone", str "cpf", str "cnpj", str "rg", str "cep",
   str "ipv4", str "ipv6", str "iban"]

/-! ## NewRedactor -/

/-- Step 1 of `NewRedactor`: the defaults unless `Types` is provided, else the
trimmed non-empty items of `Types`. -/
def seedEnabled (cfg : Config) : List GoString :=
  if TrimSpace cfg.Types = [] then
    defaultSet.foldl setAdd []
  else
    (Split cfg.Types 44).foldl
      (fun enabled t => if TrimSpace t ≠ [] then setAdd enabled (TrimSpace t) else enabled) []

/-- Step 2 of `NewRedactor`: merge the locale packs named in `Locale`. -/
def mergeLocale (cfg : Config) (enabled : List GoString) : List GoString :=
  (Split cfg.Locale 44).foldl
    (fun enabled p =>
      if TrimSpace p = [] then enabled
      else
        match mapGet packs (TrimSpace p) with
        | some names => names.foldl setAdd enabled
        | none => enabled)
    enabled

/-- The set `enabled` of `NewRedactor` after steps 1 and 2. -/
def enabledKinds (cfg : Config) : List GoString := mergeLocale cfg (seedEnabled cfg)

/-- The active pattern map built from the enabled built-ins. -/
def builtinPatterns (enabled : List GoString) : List (GoString × Regexp) :=
  enabled.foldl
    (fun patterns name =>
      match mapGet all name with
      | some re => mapSet patterns name re
      | none => patterns)
    []

/-- Step 3 of `NewRedactor`: the loop over `cfg.Custom`, on the state
`(r.patterns, r.order)`; it stops at the first expression that does not
compile, with the error text. -/
def addCustom (L : Lib) :
    List (GoString × GoString) → List (GoString × Regexp) × List GoString →
      Except GoString (List (GoString × Regexp) × List GoString)
  | [], st => .ok st
  | (name, expr) :: rest, st =>
    if TrimSpace name = [] ∨ TrimSpace expr = [] then addCustom L rest st
    else
      match L.compileErr (TrimSpace expr) with
      | some err =>
        .error (str "invalid custom regex for " ++ L.quote (TrimSpace name) ++ str ": " ++ err)
      | none =>
        addCustom L rest (mapSet st.1 (TrimSpace name) ⟨TrimSpace expr⟩, st.2 ++ [TrimSpace name])

/-- The loop over `baseOrder`: append every known kind that has a pattern. -/
def appendBase (patterns : List (GoString × Regexp)) (order : List GoString) : List GoString :=
  baseOrder.foldl
    (fun order k => if (mapGet patterns k).isSome then order ++ [k] else order) order

/-- The final loop of `NewRedactor`: drop duplicates, keeping first occurrences;
the state is `(seen, ordered)`. -/
def dedupLoop : List GoString → List GoString × List GoString → List GoString × List GoString
  | [], st => st
  | k :: rest, st =>
    if k ∈ st.1 then dedupLoop rest st
    else dedupLoop rest (setAdd st.1 k, st.2 ++ [k])

/-- Go `NewRedactor`: its two results, the engine and the error. -/
def NewRedactor (L : Lib) (cfg : Config) : Option Redactor × Option GoString :=
  match addCustom L cfg.Custom (builtinPatterns (enabledKinds cfg), []) with
  | .error msg => (none, some msg)
  | .ok (patterns, order) =>
    (some
      { cfg := cfg
        patterns := patterns
        order := (dedupLoop (appendBase patterns order) ([], [])).2
        counts := [] },
     none)

/-! ## Validation and replacement -/

/-- Go `onlyDigits`: the runes '0'..'9' of `s`, each written back as one byte. -/
def onlyDigits (s : GoString) : GoString :=
  (runes s).filter (fun r => 48 ≤ r ∧ r ≤ 57)

/-- The body of the loop of `luhnOK` at byte `b`, on the state `(sum, alt)`. -/
def luhnStep (st : Nat × Bool) (b : Nat) : Nat × Bool :=
  let n := (b + 256 - 48) % 256
  let n := if st.2 then (if n * 2 > 9 then n * 2 - 9 else n * 2) else n
  (st.1 + n, !st.2)

/-- Go `luhnOK`: the loop runs from the last byte to the first. Each byte adds
at most 501 to `sum`, so the 64-bit `int` of the source does not overflow on
any string that fits in memory and `sum` is a natural number here. -/
def luhnOK (s : GoString) : Bool :=
  (s.reverse.foldl luhnStep (0, false)).1 % 10 == 0

/-- The guard of the `cc` callback in `RedactString`: `true` when the candidate
`m` is counted and replaced, `false` when it is returned unchanged. -/
def ccAccept (m : GoString) : Bool :=
  let digits := onlyDigits m
  !(digits.length < 13 || digits.length > 19 || !luhnOK digits)

/-- The body of the loop of `maskKeepLastDigits` at rune `r`, on the state
`(seen, runes already passed)`. -/
def maskStep (keep ch : Nat) (st : Nat × List Nat) (r : Nat) : Nat × List Nat :=
  if 48 ≤ r ∧ r ≤ 57 then
    if st.1 < keep then (st.1 + 1, r :: st.2) else (st.1, ch :: st.2)
  else (st.1, r :: st.2)

/-- Go `maskKeepLastDigits`: the loop runs from the last rune to the first. -/
def maskKeepLastDigits (s : GoString) (keep ch : Nat) : GoString :=
  ofRunes ((runes s).reverse.foldl (maskStep keep ch) (0, [])).2

/-- Go `Redactor.replace`; `none` stands for a run-time panic. -/
def replace (L : Lib) (r : Redactor) (kind text : GoString) : Option GoString :=
  if r.cfg.Mode = str "hash" then
    let h := L.sum256 (r.cfg.Salt ++ text)
    some (str "<" ++ ToUpper L kind ++ str ":" ++ hexEncode (h.take 8) ++ str ">")
  else if r.cfg.Mode = str "tag" then
    some (str "<" ++ ToUpper L kind ++ str ">")
  else if kind = str "email" then
    let atPos := Index text 64
    if atPos ≤ 1 then some (str "<EMAIL>")
    else
      (sliceTo text 1).bind fun head =>
      (Repeat 42 (atPos - 1)).bind fun stars =>
      (sliceFrom text atPos).bind fun tail =>
      some (head ++ stars ++ tail)
  else if kind = str "cc" then
    let d := onlyDigits text
    if d.length < 4 then some (str "<CC>")
    else
      (Repeat 42 ((d.length : Int) - 4)).bind fun stars =>
      (sliceFrom d ((d.length : Int) - 4)).bind fun tail =>
      some (stars ++ tail)
  else if kind = str "phone" then some (maskKeepLastDigits text 4 42)
  else some (str "<" ++ ToUpper L kind ++ str ">")

/-! ### SHA-256 -/

/-- Rotate the 32-bit word `x` right by `n` bits. -/
def rotr32 (x n : Nat) : Nat := ((x >>> n) ||| (x <<< (32 - n))) % 4294967296

/-- The round constants of SHA-256. -/
def sha256K : List Nat :=
  [0x428a2f98, 0x71374491, 0xb5c0fbcf, 0xe9b5dba5, 0x3956c25b, 0x59f111f1, 0x923f82a4, 0xab1c5ed5,
   0xd807aa98, 0x12835b01, 0x243185be, 0x550c7dc3, 0x72be5d74, 0x80deb1fe, 0x9bdc06a7, 0xc19bf174,
   0xe49b69c1, 0xefbe4786, 0x0fc19dc6, 0x240ca1cc, 0x2de92c6f, 0x4a7484aa, 0x5cb0a9dc, 0x76f988da,
   0x983e5152, 0xa831c66d, 0xb00327c8, 0xbf597fc7, 0xc6e00bf3, 0xd5a79147, 0x06ca6351, 0x14292967,
   0x27b70a85, 0x2e1b2138, 0x4d2c6dfc, 0x53380d13, 0x650a7354, 0x766a0abb, 0x81c2c92e, 0x92722c85,
   0xa2bfe8a1, 0xa81a664b, 0xc24b8b70, 0xc76c51a3, 0xd192e819, 0xd6990624, 0xf40e3585, 0x106aa070,
   0x19a4c116, 0x1e376c08, 0x2748774c, 0x34b0bcb5, 0x391c0cb3, 0x4ed8aa4a, 0x5b9cca4f, 0x682e6ff3,
   0x748f82ee, 0x78a5636f, 0x84c87814, 0x8cc70208, 0x90befffa, 0xa4506ceb, 0xbef9a3f7, 0xc67178f2]

/-- The initial hash value of SHA-256. -/
def sha256Init : List Nat :=
  [0x6a09e667, 0xbb67ae85, 0x3c6ef372, 0xa54ff53a, 0x510e527f, 0x9b05688c, 0x1f83d9ab, 0x5be0cd19]

/-- The padded message: the bytes, the byte 0x80, zero bytes up to 56 modulo
64, and the bit length as 8 bytes, most significant first. -/
def sha256Pad (msg : GoString) : GoString :=
  msg.map (fun b => b % 256) ++ [0x80] ++ List.replicate ((119 - msg.length % 64) % 64) 0 ++
    (List.range 8).map fun i => (msg.length * 8 / 256 ^ (7 - i)) % 256

/-- The 16 big-endian words of a 64-byte block. -/
def sha256Words (block : GoString) : List Nat :=
  (List.range 16).map fun i =>
    ((block.drop (4 * i)).take 4).foldl (fun acc b => acc * 256 + b) 0

/-- Extend the message schedule `w` by `n` words. -/
def sha256Schedule (w : List Nat) : Nat → List Nat
  | 0 => w
  | n + 1 =>
    let i := w.length
    let x := w.getD (i - 15) 0
    let y := w.getD (i - 2) 0
    let s0 := rotr32 x 7 ^^^ rotr32 x 18 ^^^ (x >>> 3)
    let s1 := rotr32 y 17 ^^^ rotr32 y 19 ^^^ (y >>> 10)
    sha256Schedule (w ++ [(w.getD (i - 16) 0 + s0 + w.getD (i - 7) 0 + s1) % 4294967296]) n

/-- One round of the compression function, on the working variables, with the
round constant and the schedule word. -/
def sha256Round (st : List Nat) (kw : Nat × Nat) : List Nat :=
  match st with
  | [a, b, c, d, e, f, g, h] =>
    let s1 := rotr32 e 6 ^^^ rotr32 e 11 ^^^ rotr32 e 25
    let ch := (e &&& f) ^^^ ((4294967295 - e) &&& g)
    let t1 := (h + s1 + ch + kw.1 + kw.2) % 4294967296
    let s0 := rotr32 a 2 ^^^ rotr32 a 13 ^^^ rotr32 a 22
    let maj := (a &&& b) ^^^ (a &&& c) ^^^ (b &&& c)
    let t2 := (s0 + maj) % 4294967296
    [(t1 + t2) % 4294967296, a, b, c, (d + t1) % 4294967296, e, f, g]
  | _ => st

/-- The compression of one 64-byte block into the hash value `st`. -/
def sha256Block (st : List Nat) (block : GoString) : List Nat :=
  List.zipWith (fun x y => (x + y) % 4294967296) st
    ((sha256K.zip (sha256Schedule (sha256Words block) 48)).foldl sha256Round st)

/-- The compression of the first `n` blocks of `data`. -/
def sha256Blocks : Nat → List Nat → GoString → List Nat
  | 0, st, _ => st
  | n + 1, st, data => sha256Blocks n (sha256Block st (data.take 64)) (data.drop 64)

/-- Go `sha256.Sum256`: the SHA-256 digest (FIPS 180-4) of the bytes, 32
bytes. -/
def Sum256 (msg : GoString) : GoString :=
  (List.range 8).flatMap fun i =>
    let w := (sha256Blocks ((sha256Pad msg).length / 64) sha256Init (sha256Pad msg)).getD i 0
    [(w / 16777216) % 256, (w / 65536) % 256, (w / 256) % 256, w % 256]

/-! ## Example inputs -/

/-- A library instance for the examples: every expression compiles, quoting
adds double quotes, the digest is SHA-256, and the Unicode upper-casing is not
exercised. It agrees with Go on the expressions the examples use, which are
plain letters and `\d` with a repetition count. -/
def exampleLib : Lib :=
  { compileErr := fun _ => none
    quote := fun s => [34] ++ s ++ [34]
    sum256 := Sum256
    upperUnicode := fun s => s }

/-! ## Specification functions

Closed forms of the loops above, used to state and prove the properties. -/

/-- The custom entries that `addCustom` does not skip, trimmed: those whose name
and expression are both non-empty after trimming, in enumeration order. -/
def effective (custom : List (GoString × GoString)) : List (GoString × GoString) :=
  custom.filterMap fun e =>
    if TrimSpace e.1 = [] ∨ TrimSpace e.2 = [] then none else some (TrimSpace e.1, TrimSpace e.2)

/-- The names of the custom kinds of a configuration, in enumeration order. -/
def customNames (cfg : Config) : List GoString := (effective cfg.Custom).map Prod.fst

/-- The elements of `l` that are not in `seen`, each kept at its first
occurrence only. -/
def keepFirst : List GoString → List GoString → List GoString
  | _, [] => []
  | seen, k :: rest =>
    if k ∈ seen then keepFirst seen rest else k :: keepFirst (setAdd seen k) rest

/-- The sum of the Luhn checksum as the specification words it: the digit
values are taken from right to left, every second one (starting with the
second from the right) is doubled, 9 is subtracted from a doubled value that
exceeds 9, and everything is added up. `ds` holds the digit values from right
to left. -/
def luhnSumFromRight : List Nat → Nat
  | [] => 0
  | [d] => d
  | d :: e :: rest => d + (if 2 * e > 9 then 2 * e - 9 else 2 * e) + luhnSumFromRight rest

/-- The Luhn test of the specification on a string of decimal digits. -/
def luhnValid (d : GoString) : Prop :=
  luhnSumFromRight (d.reverse.map fun b => b - 48) % 10 = 0

/-- A string of decimal digits. -/
def isDigits (d : GoString) : Prop := ∀ b ∈ d, 48 ≤ b ∧ b ≤ 57

/-- The built-in kinds: the names of the registry `all`. -/
def isBuiltin (k : GoString) : Bool := (mapGet all k).isSome

/-- The order of the built-in kinds as the specification words it: email, cc,
phone, the regional kinds in the order of their declaration in the registry
and in the pack (cpf, cnpj, cep, rg), then ipv4, ipv6, iban. -/
def specOrder : List GoString :=
  [str "email", str "cc", str "phone", str "cpf", str "cnpj", str "cep", str "rg",
   str "ipv4", str "ipv6", str "iban"]

/-- Example configuration: defaults and one custom pattern `x`. -/
def cfgOneCustom : Config :=
  { Mode := str "mask", Salt := [], Types := [], Locale := [],
    Custom := [(str "x", str "a")] }

/-- Example configuration: defaults and the Brazil pack. -/
def cfgBr : Config :=
  { Mode := str "mask", Salt := [], Types := [], Locale := str "br", Custom := [] }

/-- Example configuration: two custom patterns, enumerated `a` then `b`. -/
def cfgTwoCustomAB : Config :=
  { Mode := str "mask", Salt := [], Types := [], Locale := [],
    Custom := [(str "a", str "x"), (str "b", str "y")] }

/-- The same map as in `cfgTwoCustomAB`, enumerated `b` then `a`. -/
def cfgTwoCustomBA : Config :=
  { Mode := str "mask", Salt := [], Types := [], Locale := [],
    Custom := [(str "b", str "y"), (str "a", str "x")] }

/-- Example configuration: a custom pattern named like the built-in `email`. -/
def cfgShadow : Config :=
  { Mode := str "mask", Salt := [], Types := [], Locale := [],
    Custom := [(str "email", str "a")] }

/-- Example configuration: explicit kind `email` and the Brazil pack. -/
def cfgEmailBr : Config :=
  { Mode := str "mask", Salt := [], Types := str "email", Locale := str "br", Custom := [] }

/-- The engine that `NewRedactor` builds from `cfgBr`. -/
def planBr : Redactor :=
  { cfg := cfgBr
    patterns := builtinPatterns (enabledKinds cfgBr)
    order := [str "email", str "cc", str "phone", str "cpf", str "cnpj", str "rg",
      str "cep", str "ipv4", str "ipv6", str "iban"]
    counts := [] }

/-- The engine that `NewRedactor` builds from `cfgTwoCustomAB`. -/
def planTwoCustomAB : Redactor :=
  { cfg := cfgTwoCustomAB
    patterns := mapSet (mapSet (builtinPatterns defaultSet) (str "a") ⟨str "x"⟩) (str "b") ⟨str "y"⟩
    order := [str "a", str "b", str "email", str "cc", str "phone", str "ipv4", str "ipv6",
      str "iban"]
    counts := [] }

/-- The engine that `NewRedactor` builds from `cfgShadow`: `email` is planned
once and bound to the custom rule. -/
def planShadow : Redactor :=
  { cfg := cfgShadow
    patterns := mapSet (builtinPatterns defaultSet) (str "email") ⟨str "a"⟩
    order := [str "email", str "cc", str "phone", str "ipv4", str "ipv6", str "iban"]
    counts := [] }

/-- The engine that `NewRedactor` builds from `cfgEmailBr`. -/
def planEmailBr : Redactor :=
  { cfg := cfgEmailBr
    patterns := builtinPatterns (enabledKinds cfgEmailBr)
    order := [str "email", str "cpf", str "cnpj", str "rg", str "cep"]
    counts := [] }

/-- Example configuration: `Types` is white space only, `Locale` names an
unknown pack, no custom pattern. -/
def cfgBlank : Config :=
  { Mode := str "mask", Salt := [], Types := str " \t", Locale := str "xx, ", Custom := [] }

/-! ## RedactString and Counts -/

/-- The regular-expression engine as `RedactString` uses it: for a compiled
expression and a string, the matches `(start, end)` (byte offsets) for which
`Regexp.ReplaceAllStringFunc` calls its callback, from left to right. -/
abbrev Matcher := Regexp → GoString → List (Nat × Nat)

/-- The read `counts[k]` of a `map[string]int`: a missing key reads as 0. -/
def getCount (counts : List (GoString × Nat)) (k : GoString) : Nat :=
  (mapGet counts k).getD 0

/-- The statement `counts[k]++`. -/
def incCount (counts : List (GoString × Nat)) (k : GoString) : List (GoString × Nat) :=
  mapSet counts k (getCount counts k + 1)

/-- Go `Regexp.ReplaceAllStringFunc(s, repl)` over the matches it visits: the
text between the matches is copied, each match is replaced by what the
callback returns for it; `pos` is the end of the previous match. The callback
runs on the counters, which it may update, and `none` stands for a panic
inside it. -/
def replaceAllFunc (s : GoString)
    (repl : GoString → List (GoString × Nat) → Option (GoString × List (GoString × Nat))) :
    List (Nat × Nat) → Nat → List (GoString × Nat) → Option (GoString × List (GoString × Nat))
  | [], pos, counts => some (s.drop pos, counts)
  | (a, b) :: rest, pos, counts =>
    (repl ((s.take b).drop a) counts).bind fun res =>
    (replaceAllFunc s repl rest b res.2).bind fun tail =>
    some ((s.take a).drop pos ++ res.1 ++ tail.1, tail.2)

/-- The callback of the `cc` case of `RedactString`. -/
def ccCallback (L : Lib) (r : Redactor) (name : GoString) (m : GoString)
    (counts : List (GoString × Nat)) : Option (GoString × List (GoString × Nat)) :=
  if ccAccept m then (replace L r name m).bind fun out => some (out, incCount counts name)
  else some (m, counts)

/-- The callback of the default case of `RedactString`. -/
def defaultCallback (L : Lib) (r : Redactor) (name : GoString) (m : GoString)
    (counts : List (GoString × Nat)) : Option (GoString × List (GoString × Nat)) :=
  (replace L r name m).bind fun out => some (out, incCount counts name)

/-- The body of the loop of `RedactString` for the kind `name`, on the state
`(s, r.counts)`. -/
def redactPass (L : Lib) (M : Matcher) (r : Redactor) (name : GoString)
    (st : GoString × List (GoString × Nat)) : Option (GoString × List (GoString × Nat)) :=
  match mapGet r.patterns name with
  | none => some st
  | some re =>
    if name = str "cc" then replaceAllFunc st.1 (ccCallback L r name) (M re st.1) 0 st.2
    else replaceAllFunc st.1 (defaultCallback L r name) (M re st.1) 0 st.2

/-- The loop of `RedactString` over the kinds `names`. -/
def redactLoop (L : Lib) (M : Matcher) (r : Redactor) :
    List GoString → GoString × List (GoString × Nat) → Option (GoString × List (GoString × Nat))
  | [], st => some st
  | name :: rest, st => (redactPass L M r name st).bind fun st1 => redactLoop L M r rest st1

/-- Go `Redactor.RedactString`: the string it returns and the engine with its
updated counters; `none` stands for a panic. -/
def RedactString (L : Lib) (M : Matcher) (r : Redactor) (s : GoString) :
    Option (GoString × Redactor) :=
  (redactLoop L M r r.order (s, r.counts)).bind fun st =>
    some (st.1, { r with counts := st.2 })

/-- Go `Redactor.Counts`: a copy of the counters. -/
def Counts (r : Redactor) : List (GoString × Nat) :=
  r.counts.foldl (fun out e => mapSet out e.1 e.2) []

/-- A matcher for the examples: the `email` rule matches the whole of the string
`ab@example.com`, and nothing else matches. It agrees with Go's engine on the
strings of the examples, `ab@example.com` and its masked form
`a*@example.com`, for all ten built-in rules. -/
def exampleMatcher : Matcher := fun re s =>
  if mapGet all (str "email") = some re ∧ s = str "ab@example.com" then [(0, 14)] else []

/-! ## Specification functions for the replacement strategy and the engine -/

/-- A lower-case hexadecimal character. -/
def isHexChar (c : Nat) : Prop := (48 ≤ c ∧ c ≤ 57) ∨ (97 ≤ c ∧ c ≤ 102)

/-- A lower-case hexadecimal character read back as its value. -/
def hexValue (c : Nat) : Nat := if c ≤ 57 then c - 48 else c - 87

/-- The rule compiled from the custom expression of the phone example: eight
decimal digits (`\d` with the repetition count 8). -/
def customPhoneRule : Regexp := ⟨str "\\d\x7b8\x7d"⟩

/-- Example configuration: mask mode, the defaults, and a custom pattern named
like the built-in `phone`, whose expression matches eight digits. -/
def cfgCustomPhone : Config :=
  { Mode := str "mask", Salt := [], Types := [], Locale := [],
    Custom := [(str "phone", str "\\d\x7b8\x7d")] }

/-- The engine that `NewRedactor` builds from `cfgCustomPhone`: `phone` is bound
to the custom rule. -/
def planCustomPhone : Redactor :=
  { cfg := cfgCustomPhone
    patterns := mapSet (builtinPatterns defaultSet) (str "phone") customPhoneRule
    order := [str "phone", str "email", str "cc", str "ipv4", str "ipv6", str "iban"]
    counts := [] }

/-- A matcher for the custom phone example: the custom rule finds the eight
digits of `n 12345678`, and nothing else matches. It agrees with Go's engine
on the strings of the example, `n 12345678` and `n ****5678`, for the rules of
`planCustomPhone`. -/
def phoneExampleMatcher : Matcher := fun re s =>
  if re = customPhoneRule ∧ s = str "n 12345678" then [(2, 10)] else []

/-- An engine in hash mode with the salt `s1`. -/
def planHash : Redactor :=
  { planBr with cfg := { planBr.cfg with Mode := str "hash", Salt := str "s1" } }

/-- An engine in tag mode. -/
def planTag : Redactor :=
  { planBr with cfg := { planBr.cfg with Mode := str "tag" } }

/-- An engine whose mode is the unrecognised value `redact`. -/
def planOtherMode : Redactor :=
  { planBr with cfg := { planBr.cfg with Mode := str "redact" } }

/-- Example configuration: `Types` names `email` and the unknown kind `bogus`. -/
def cfgUnknownType : Config :=
  { Mode := str "mask", Salt := [], Types := str "email,bogus", Locale := [], Custom := [] }

/-- The engine that `NewRedactor` builds from `cfgUnknownType`. -/
def planUnknownType : Redactor :=
  { cfg := cfgUnknownType
    patterns := builtinPatterns [str "email"]
    order := [str "email"]
    counts := [] }

/-- The candidate that a match `(start, end)` delimits in `s`. -/
def matchText (s : GoString) (sp : Nat × Nat) : GoString := (s.take sp.2).drop sp.1

/-- The string that `Regexp.ReplaceAllStringFunc` builds when its callback
returns `f m` for the candidate `m`: the text between the matches is copied,
each candidate is replaced by its image. -/
def rewriteMatches (s : GoString) (f : GoString → GoString) : List (Nat × Nat) → Nat → GoString
  | [], pos => s.drop pos
  | (a, b) :: rest, pos => (s.take a).drop pos ++ f ((s.take b).drop a) ++ rewriteMatches s f rest b

/-- The matches lie in `s` from `pos` on, one after the other, without
overlap. -/
def spansOrdered (s : GoString) : List (Nat × Nat) → Nat → Prop
  | [], _ => True
  | (a, b) :: rest, pos => pos ≤ a ∧ a ≤ b ∧ b ≤ s.length ∧ spansOrdered s rest b

/-- The secondary validator of a kind: the Luhn guard for `cc`, none for any
other kind. -/
def accepts (name m : GoString) : Bool := if name = str "cc" then ccAccept m else true

/-- The substitute of a candidate: `replace` never panics (see `replace_isSome`),
so the default is never used. -/
def substitute (L : Lib) (r : Redactor) (name m : GoString) : GoString :=
  (replace L r name m).getD m

/-- The number of candidates of the kind `name` that its pass over `s`
accepts. -/
def acceptedInPass (M : Matcher) (r : Redactor) (name s : GoString) : Nat :=
  match mapGet r.patterns name with
  | none => 0
  | some re => ((M re s).filter fun sp => accepts name (matchText s sp)).length

/-- The string that the pass of the kind `name` makes of `s`. -/
def passString (L : Lib) (M : Matcher) (r : Redactor) (name s : GoString) : GoString :=
  match mapGet r.patterns name with
  | none => s
  | some re =>
    rewriteMatches s (fun m => if accepts name m then substitute L r name m else m) (M re s) 0

/-- The number of candidates of the kind `k` accepted during one call of
`RedactString` on `s` that runs the passes `names`: each pass works on the
string that the passes before it have left. -/
def acceptedInCall (L : Lib) (M : Matcher) (r : Redactor) :
    List GoString → GoString → GoString → Nat
  | [], _, _ => 0
  | name :: rest, s, k =>
    (if name = k then acceptedInPass M r name s else 0) +
      acceptedInCall L M r rest (passString L M r name s) k

/-- The counters after `n` executions of `counts[k]++`. -/
def incCountN (n : Nat) (counts : List (GoString × Nat)) (k : GoString) : List (GoString × Nat) :=
  match n with
  | 0 => counts
  | n + 1 => incCountN n (incCount counts k) k

/-- The rule of the built-in kind `cc`. -/
def ccRule : Regexp := MustCompile "\\b(?:\\d[ -]*?)\x7b13,19\x7d\\b"

/-- The rule of the built-in kind `phone`. -/
def phoneRule : Regexp :=
  MustCompile "\\b(?:\\+?\\d\x7b1,3\x7d[\\s\\-.]?)?(?:\\(?\\d\x7b2,4\x7d\\)?[\\s\\-.]?)?\\d\x7b3,5\x7d[\\s\\-.]?\\d\x7b4\x7d\\b"

/-- A matcher for the card example: in `pay 4539148803436468 now` the `cc` rule
and the `phone` rule each find the 16 digits, as Go's engine does, and no
other built-in rule matches. -/
def ccExampleMatcher : Matcher := fun re s =>
  if (re = ccRule ∨ re = phoneRule) ∧ s = str "pay 4539148803436468 now" then [(4, 20)] else []

/-- A decimal digit, as `maskKeepLastDigits` tests it. -/
def isDigitRune (r : Nat) : Bool := decide (48 ≤ r ∧ r ≤ 57)

/-- The number of decimal digits among the runes `rs`. -/
def digitCount (rs : List Nat) : Nat := (rs.filter isDigitRune).length

/-- The masking of the specification, on runes: a digit that has at least
`keep` digits after it is replaced by `ch`; the last `keep` digits and every
other rune stay. -/
def maskSpec (keep ch : Nat) : List Nat → List Nat
  | [] => []
  | x :: rest =>
    (if isDigitRune x = true ∧ keep ≤ digitCount rest then ch else x) :: maskSpec keep ch rest

/-- A Unicode scalar value: what `utf8.ValidRune` accepts. -/
def validRune (r : Nat) : Prop := r < 0xD800 ∨ (0xE000 ≤ r ∧ r ≤ 0x10FFFF)

/-- Valid UTF-8, Go `utf8.ValidString`: decoding the string and encoding the
runes again gives the string back (an invalid byte would come back as the
three bytes of U+FFFD). -/
def validUTF8 (s : GoString) : Prop := ofRunes (runes s) = s

/-! ## Maps and sets -/

theorem mapGet_mapSet {β : Type} (m : List (GoString × β)) (k x : GoString) (v : β) :
    mapGet (mapSet m k v) x = if k = x then some v else mapGet m x := by
  induction m with
  | nil => simp [mapSet, mapGet]
  | cons e rest ih =>
    obtain ⟨k1, v1⟩ := e
    by_cases h1 : k1 = k
    · subst h1
      by_cases h2 : k1 = x <;> simp [mapSet, mapGet, h2]
    · by_cases h2 : k1 = x
      · subst h2
        simp [mapSet, mapGet, h1, Ne.symm h1]
      · simp [mapSet, mapGet, h1, h2, ih]

theorem mem_setAdd (set : List GoString) (k x : GoString) :
    x ∈ setAdd set k ↔ x ∈ set ∨ x = k := by
  unfold setAdd
  split
  · constructor
    · intro h; exact Or.inl h
    · rintro (h | h)
      · exact h
      · subst h; assumption
  · simp

theorem mem_foldl_setAdd (names : List GoString) (set : List GoString) (x : GoString) :
    x ∈ names.foldl setAdd set ↔ x ∈ set ∨ x ∈ names := by
  induction names generalizing set with
  | nil => simp
  | cons n rest ih =>
    simp only [List.foldl_cons, ih, mem_setAdd, List.mem_cons]
    tauto

/-! ## The enabled set -/

theorem mem_seed_items (items : List GoString) (set : List GoString) (x : GoString) :
    x ∈ items.foldl
        (fun enabled t => if TrimSpace t ≠ [] then setAdd enabled (TrimSpace t) else enabled) set ↔
      x ∈ set ∨ ∃ t ∈ items, TrimSpace t ≠ [] ∧ TrimSpace t = x := by
  induction items generalizing set with
  | nil => simp
  | cons t rest ih =>
    simp only [List.foldl_cons, ih, List.mem_cons]
    by_cases ht : TrimSpace t = []
    · simp only [ht, ne_eq, not_true_eq_false, if_false]
      constructor
      · rintro (h | ⟨u, hu, h1, h2⟩)
        · exact Or.inl h
        · exact Or.inr ⟨u, Or.inr hu, h1, h2⟩
      · rintro (h | ⟨u, hu | hu, h1, h2⟩)
        · exact Or.inl h
        · subst hu; exact absurd ht h1
        · exact Or.inr ⟨u, hu, h1, h2⟩
    · simp only [ne_eq, ht, not_false_eq_true, if_true, mem_setAdd]
      constructor
      · rintro ((h | h) | ⟨u, hu, h1, h2⟩)
        · exact Or.inl h
        · exact Or.inr ⟨t, Or.inl rfl, ht, h.symm⟩
        · exact Or.inr ⟨u, Or.inr hu, h1, h2⟩
      · rintro (h | ⟨u, hu | hu, h1, h2⟩)
        · exact Or.inl (Or.inl h)
        · subst hu; exact Or.inl (Or.inr h2.symm)
        · exact Or.inr ⟨u, hu, h1, h2⟩

theorem seedEnabled_default : defaultSet.foldl setAdd [] = defaultSet := by decide

theorem mem_seedEnabled (cfg : Config) (x : GoString) :
    x ∈ seedEnabled cfg ↔
      (TrimSpace cfg.Types = [] ∧ x ∈ defaultSet) ∨
      (TrimSpace cfg.Types ≠ [] ∧ x ≠ [] ∧ ∃ t ∈ Split cfg.Types 44, TrimSpace t = x) := by
  unfold seedEnabled
  split
  · rename_i h
    rw [seedEnabled_default]
    simp [h]
  · rename_i h
    rw [mem_seed_items]
    simp only [List.not_mem_nil, false_or, h, false_and, ne_eq, not_false_eq_true, true_and]
    constructor
    · rintro ⟨t, ht, h1, h2⟩
      exact ⟨h2 ▸ h1, t, ht, h2⟩
    · rintro ⟨h1, t, ht, h2⟩
      exact ⟨t, ht, h2 ▸ h1, h2⟩

theorem mem_merge_items (items : List GoString) (set : List GoString) (x : GoString) :
    x ∈ items.foldl
        (fun enabled p =>
          if TrimSpace p = [] then enabled
          else
            match mapGet packs (TrimSpace p) with
            | some names => names.foldl setAdd enabled
            | none => enabled) set ↔
      x ∈ set ∨ ∃ p ∈ items, ∃ names, mapGet packs (TrimSpace p) = some names ∧ x ∈ names := by
  induction items generalizing set with
  | nil => simp
  | cons p rest ih =>
    simp only [List.foldl_cons, ih, List.mem_cons]
    by_cases hp : TrimSpace p = []
    · have hnone : mapGet packs (TrimSpace p) = none := by rw [hp]; decide
      simp only [hp, if_true]
      constructor
      · rintro (h | ⟨q, hq, h⟩)
        · exact Or.inl h
        · exact Or.inr ⟨q, Or.inr hq, h⟩
      · rintro (h | ⟨q, hq | hq, names, h1, h2⟩)
        · exact Or.inl h
        · subst hq; rw [hp] at h1; rw [← hp, hnone] at h1; cases h1
        · exact Or.inr ⟨q, hq, names, h1, h2⟩
    · simp only [hp, if_false]
      cases hg : mapGet packs (TrimSpace p) with
      | none =>
        simp only
        constructor
        · rintro (h | ⟨q, hq, h⟩)
          · exact Or.inl h
          · exact Or.inr ⟨q, Or.inr hq, h⟩
        · rintro (h | ⟨q, hq | hq, names, h1, h2⟩)
          · exact Or.inl h
          · subst hq; rw [hg] at h1; cases h1
          · exact Or.inr ⟨q, hq, names, h1, h2⟩
      | some ns =>
        simp only [mem_foldl_setAdd]
        constructor
        · rintro ((h | h) | ⟨q, hq, h⟩)
          · exact Or.inl h
          · exact Or.inr ⟨p, Or.inl rfl, ns, hg, h⟩
          · exact Or.inr ⟨q, Or.inr hq, h⟩
        · rintro (h | ⟨q, hq | hq, names, h1, h2⟩)
          · exact Or.inl (Or.inl h)
          · subst hq; rw [hg] at h1; cases h1; exact Or.inl (Or.inr h2)
          · exact Or.inr ⟨q, hq, names, h1, h2⟩

theorem mem_enabledKinds (cfg : Config) (x : GoString) :
    x ∈ enabledKinds cfg ↔
      x ∈ seedEnabled cfg ∨
      ∃ p ∈ Split cfg.Locale 44, ∃ names, mapGet packs (TrimSpace p) = some names ∧ x ∈ names := by
  unfold enabledKinds mergeLocale
  exact mem_merge_items _ _ _

/-! ## The pattern map -/

theorem mapGet_builtin_fold (enabled : List GoString) (acc : List (GoString × Regexp))
    (done : List GoString)
    (hacc : ∀ k, mapGet acc k = if k ∈ done then mapGet all k else none) (k : GoString) :
    mapGet
        (enabled.foldl
          (fun patterns name =>
            match mapGet all name with
            | some re => mapSet patterns name re
            | none => patterns) acc) k =
      if k ∈ done ∨ k ∈ enabled then mapGet all k else none := by
  induction enabled generalizing acc done with
  | nil => simpa using hacc k
  | cons n rest ih =>
    simp only [List.foldl_cons]
    rw [ih _ (done ++ [n])]
    · simp only [List.mem_append, List.mem_singleton, List.mem_cons]
      by_cases h1 : k ∈ done <;> by_cases h2 : k = n <;> by_cases h3 : k ∈ rest <;> simp [h1, h2, h3]
    · intro x
      cases hn : mapGet all n with
      | none =>
        simp only [hacc x, List.mem_append, List.mem_singleton]
        by_cases h1 : x ∈ done
        · simp [h1]
        · by_cases h2 : x = n
          · subst h2; simp [h1, hn]
          · simp [h1, h2]
      | some re =>
        simp only [mapGet_mapSet, hacc x, List.mem_append, List.mem_singleton]
        by_cases h2 : n = x
        · subst h2; simp [hn]
        · have h2' : ¬ x = n := fun h => h2 h.symm
          simp [h2, h2']

theorem mapGet_builtinPatterns (enabled : List GoString) (k : GoString) :
    mapGet (builtinPatterns enabled) k = if k ∈ enabled then mapGet all k else none := by
  unfold builtinPatterns
  rw [mapGet_builtin_fold enabled [] [] (by intro x; simp [mapGet])]
  simp

/-! ## The custom patterns -/

theorem mem_effective (custom : List (GoString × GoString)) (n e : GoString) :
    (n, e) ∈ effective custom ↔
      ∃ raw ∈ custom, TrimSpace raw.1 = n ∧ TrimSpace raw.2 = e ∧ n ≠ [] ∧ e ≠ [] := by
  unfold effective
  simp only [List.mem_filterMap]
  constructor
  · rintro ⟨raw, hraw, h⟩
    split at h
    · cases h
    · rename_i hne
      simp only [Option.some.injEq, Prod.mk.injEq] at h
      obtain ⟨h1, h2⟩ := h
      refine ⟨raw, hraw, h1, h2, ?_, ?_⟩
      · rw [← h1]; exact fun h => hne (Or.inl h)
      · rw [← h2]; exact fun h => hne (Or.inr h)
  · rintro ⟨raw, hraw, h1, h2, h3, h4⟩
    refine ⟨raw, hraw, ?_⟩
    rw [if_neg]
    · rw [h1, h2]
    · rw [h1, h2]; exact fun h => h.elim h3 h4

theorem effective_cons (raw : GoString × GoString) (rest : List (GoString × GoString)) :
    effective (raw :: rest) =
      if TrimSpace raw.1 = [] ∨ TrimSpace raw.2 = [] then effective rest
      else (TrimSpace raw.1, TrimSpace raw.2) :: effective rest := by
  unfold effective
  by_cases h : TrimSpace raw.1 = [] ∨ TrimSpace raw.2 = []
  · rw [List.filterMap_cons_none (by simp [h])]; simp [h]
  · rw [List.filterMap_cons_some (by simp [h]; rfl)]; simp [h]

/-- `addCustom` succeeds exactly when every effective expression compiles. -/
theorem addCustom_isOk_iff (L : Lib) (custom : List (GoString × GoString))
    (st : List (GoString × Regexp) × List GoString) :
    (∃ st1, addCustom L custom st = .ok st1) ↔
      ∀ e ∈ effective custom, L.compileErr e.2 = none := by
  induction custom generalizing st with
  | nil => simp [addCustom, effective]
  | cons raw rest ih =>
    obtain ⟨name, expr⟩ := raw
    rw [effective_cons]
    by_cases h : TrimSpace name = [] ∨ TrimSpace expr = []
    · simp only [addCustom, h, if_true]
      exact ih st
    · simp only [addCustom, h, if_false, List.mem_cons, forall_eq_or_imp]
      cases hc : L.compileErr (TrimSpace expr) with
      | none => simpa using ih _
      | some err => simp

/-- The state that a successful `addCustom` leaves. -/
theorem addCustom_ok (L : Lib) (custom : List (GoString × GoString))
    (st st1 : List (GoString × Regexp) × List GoString)
    (h : addCustom L custom st = .ok st1) :
    st1.2 = st.2 ++ (effective custom).map Prod.fst ∧
    (∀ k, k ∉ (effective custom).map Prod.fst → mapGet st1.1 k = mapGet st.1 k) ∧
    (∀ k, k ∈ (effective custom).map Prod.fst →
      ∃ e, (k, e) ∈ effective custom ∧ mapGet st1.1 k = some ⟨e⟩) := by
  induction custom generalizing st with
  | nil =>
    simp only [addCustom, Except.ok.injEq] at h
    subst h
    simp [effective]
  | cons raw rest ih =>
    obtain ⟨name, expr⟩ := raw
    rw [effective_cons]
    by_cases hskip : TrimSpace name = [] ∨ TrimSpace expr = []
    · simp only [addCustom, hskip, if_true] at h
      simpa [hskip] using ih st h
    · simp only [addCustom, hskip, if_false] at h
      cases hc : L.compileErr (TrimSpace expr) with
      | some err => rw [hc] at h; cases h
      | none =>
        rw [hc] at h
        obtain ⟨h1, h2, h3⟩ := ih _ h
        simp only [hskip, if_false, List.map_cons, List.mem_cons, not_or]
        refine ⟨?_, ?_, ?_⟩
        · rw [h1]; simp
        · rintro k ⟨hk1, hk2⟩
          rw [h2 k hk2, mapGet_mapSet, if_neg (fun h => hk1 h.symm)]
        · intro k hk
          by_cases hk2 : k ∈ (effective rest).map Prod.fst
          · obtain ⟨e, he, hget⟩ := h3 k hk2
            exact ⟨e, Or.inr he, hget⟩
          · have hk1 : k = TrimSpace name := hk.resolve_right hk2
            refine ⟨TrimSpace expr, Or.inl (by rw [hk1]), ?_⟩
            rw [h2 k hk2, mapGet_mapSet, if_pos hk1.symm]

/-- The error that a failing `addCustom` reports. -/
theorem addCustom_error (L : Lib) (custom : List (GoString × GoString))
    (st : List (GoString × Regexp) × List GoString) (msg : GoString)
    (h : addCustom L custom st = .error msg) :
    ∃ e ∈ effective custom, ∃ err, L.compileErr e.2 = some err ∧
      msg = str "invalid custom regex for " ++ L.quote e.1 ++ str ": " ++ err := by
  induction custom generalizing st with
  | nil => simp [addCustom] at h
  | cons raw rest ih =>
    obtain ⟨name, expr⟩ := raw
    rw [effective_cons]
    by_cases hskip : TrimSpace name = [] ∨ TrimSpace expr = []
    · simp only [addCustom, hskip, if_true] at h
      simpa [hskip] using ih st h
    · simp only [addCustom, hskip, if_false] at h
      simp only [hskip, if_false]
      cases hc : L.compileErr (TrimSpace expr) with
      | some err =>
        rw [hc] at h
        simp only [Except.error.injEq] at h
        exact ⟨_, List.mem_cons_self _ _, err, hc, h.symm⟩
      | none =>
        rw [hc] at h
        obtain ⟨e, he, err, h1, h2⟩ := ih _ h
        exact ⟨e, List.mem_cons_of_mem _ he, err, h1, h2⟩

/-! ## The planned order -/

theorem appendBase_fold (patterns : List (GoString × Regexp)) (l order : List GoString) :
    l.foldl (fun order k => if (mapGet patterns k).isSome then order ++ [k] else order) order =
      order ++ l.filter (fun k => (mapGet patterns k).isSome) := by
  induction l generalizing order with
  | nil => simp
  | cons k rest ih =>
    simp only [List.foldl_cons, ih]
    by_cases h : (mapGet patterns k).isSome = true
    · simp [h, List.filter_cons]
    · simp [h, List.filter_cons]

theorem appendBase_eq (patterns : List (GoString × Regexp)) (order : List GoString) :
    appendBase patterns order =
      order ++ baseOrder.filter (fun k => (mapGet patterns k).isSome) :=
  appendBase_fold patterns baseOrder order

theorem dedupLoop_eq (l : List GoString) (st : List GoString × List GoString) :
    (dedupLoop l st).2 = st.2 ++ keepFirst st.1 l := by
  induction l generalizing st with
  | nil => simp [dedupLoop, keepFirst]
  | cons k rest ih =>
    by_cases h : k ∈ st.1
    · simp only [dedupLoop, keepFirst, h, if_true]
      exact ih st
    · simp only [dedupLoop, keepFirst, h, if_false]
      rw [ih]
      simp

theorem mem_keepFirst (seen l : List GoString) (x : GoString) :
    x ∈ keepFirst seen l ↔ x ∈ l ∧ x ∉ seen := by
  induction l generalizing seen with
  | nil => simp [keepFirst]
  | cons k rest ih =>
    by_cases h : k ∈ seen
    · simp only [keepFirst, h, if_true, ih, List.mem_cons]
      constructor
      · rintro ⟨h1, h2⟩; exact ⟨Or.inr h1, h2⟩
      · rintro ⟨h1 | h1, h2⟩
        · subst h1; exact absurd h h2
        · exact ⟨h1, h2⟩
    · simp only [keepFirst, h, if_false, ih, List.mem_cons, mem_setAdd, not_or]
      constructor
      · rintro (h1 | ⟨h1, h2, _⟩)
        · subst h1; exact ⟨Or.inl rfl, h⟩
        · exact ⟨Or.inr h1, h2⟩
      · rintro ⟨h1 | h1, h2⟩
        · exact Or.inl h1
        · by_cases hx : x = k
          · exact Or.inl hx
          · exact Or.inr ⟨h1, h2, hx⟩

theorem nodup_keepFirst (seen l : List GoString) : (keepFirst seen l).Nodup := by
  induction l generalizing seen with
  | nil => simp [keepFirst]
  | cons k rest ih =>
    by_cases h : k ∈ seen
    · simp only [keepFirst, h, if_true]; exact ih seen
    · simp only [keepFirst, h, if_false, List.nodup_cons]
      refine ⟨?_, ih _⟩
      rw [mem_keepFirst, mem_setAdd]
      exact fun hk => hk.2 (Or.inr rfl)

theorem keepFirst_filter (p : GoString → Bool) (l seen seen1 : List GoString)
    (hseen : ∀ x, p x = true → (x ∈ seen ↔ x ∈ seen1)) :
    (keepFirst seen l).filter p = keepFirst seen1 (l.filter p) := by
  induction l generalizing seen seen1 with
  | nil => simp [keepFirst]
  | cons k rest ih =>
    by_cases hp : p k = true
    · rw [List.filter_cons_of_pos hp]
      by_cases h : k ∈ seen
      · have h1 : k ∈ seen1 := (hseen k hp).1 h
        simp only [keepFirst, h, h1, if_true]
        exact ih seen seen1 hseen
      · have h1 : k ∉ seen1 := fun hk => h ((hseen k hp).2 hk)
        simp only [keepFirst, h, h1, if_false]
        rw [List.filter_cons_of_pos hp, ih (setAdd seen k) (setAdd seen1 k)]
        intro x hx
        rw [mem_setAdd, mem_setAdd, hseen x hx]
    · rw [List.filter_cons_of_neg hp]
      by_cases h : k ∈ seen
      · simp only [keepFirst, h, if_true]
        exact ih seen seen1 hseen
      · simp only [keepFirst, h, if_false]
        rw [List.filter_cons_of_neg hp]
        apply ih (setAdd seen k) seen1
        intro x hx
        rw [mem_setAdd, ← hseen x hx]
        constructor
        · rintro (h1 | h1)
          · exact h1
          · subst h1; exact absurd hx hp
        · exact Or.inl

theorem keepFirst_of_nodup (seen l : List GoString) (hl : l.Nodup) (hs : ∀ x ∈ l, x ∉ seen) :
    keepFirst seen l = l := by
  induction l generalizing seen with
  | nil => simp [keepFirst]
  | cons k rest ih =>
    have hk : k ∉ seen := hs k (List.mem_cons_self _ _)
    simp only [keepFirst, hk, if_false]
    rw [ih (setAdd seen k) (List.nodup_cons.1 hl).2]
    intro x hx
    rw [mem_setAdd, not_or]
    refine ⟨hs x (List.mem_cons_of_mem _ hx), ?_⟩
    rintro rfl
    exact (List.nodup_cons.1 hl).1 hx

/-! ## NewRedactor -/

theorem baseOrder_known : ∀ k ∈ baseOrder, (mapGet all k).isSome = true := by decide

theorem baseOrder_nodup : baseOrder.Nodup := by decide

/-- What a successful `NewRedactor` returns. -/
theorem NewRedactor_ok (L : Lib) (cfg : Config) (r : Redactor) (e : Option GoString)
    (h : NewRedactor L cfg = (some r, e)) :
    e = none ∧ r.cfg = cfg ∧ r.counts = [] ∧
    r.order =
      keepFirst [] (customNames cfg ++ baseOrder.filter (fun k => (mapGet r.patterns k).isSome)) ∧
    (∀ k, k ∉ customNames cfg →
      mapGet r.patterns k = if k ∈ enabledKinds cfg then mapGet all k else none) ∧
    (∀ k, k ∈ customNames cfg →
      ∃ x, (k, x) ∈ effective cfg.Custom ∧ mapGet r.patterns k = some ⟨x⟩) := by
  unfold NewRedactor at h
  cases hc : addCustom L cfg.Custom (builtinPatterns (enabledKinds cfg), []) with
  | error msg => rw [hc] at h; cases h
  | ok st =>
    rw [hc] at h
    obtain ⟨patterns, order⟩ := st
    simp only [Prod.mk.injEq, Option.some.injEq] at h
    obtain ⟨hr, he⟩ := h
    obtain ⟨h1, h2, h3⟩ := addCustom_ok L cfg.Custom _ _ hc
    simp only [List.nil_append] at h1
    subst hr
    refine ⟨he.symm, rfl, rfl, ?_, ?_, ?_⟩
    · simp only [dedupLoop_eq, appendBase_eq, List.nil_append, h1, customNames]
    · intro k hk
      rw [h2 k hk, mapGet_builtinPatterns]
    · exact h3

/-- The two outcomes of `NewRedactor`. -/
theorem NewRedactor_cases (L : Lib) (cfg : Config) :
    ((∀ e ∈ effective cfg.Custom, L.compileErr e.2 = none) ∧
      ∃ r, NewRedactor L cfg = (some r, none)) ∨
    ((∃ e ∈ effective cfg.Custom, L.compileErr e.2 ≠ none) ∧
      ∃ msg, NewRedactor L cfg = (none, some msg) ∧
        ∃ e ∈ effective cfg.Custom, ∃ err, L.compileErr e.2 = some err ∧
          msg = str "invalid custom regex for " ++ L.quote e.1 ++ str ": " ++ err) := by
  cases hc : addCustom L cfg.Custom (builtinPatterns (enabledKinds cfg), []) with
  | error msg =>
    right
    obtain ⟨e, he, err, h1, h2⟩ := addCustom_error L _ _ _ hc
    refine ⟨⟨e, he, by rw [h1]; simp⟩, msg, ?_, e, he, err, h1, h2⟩
    simp [NewRedactor, hc]
  | ok st =>
    left
    refine ⟨(addCustom_isOk_iff L _ _).1 ⟨st, hc⟩, ?_⟩
    simp [NewRedactor, hc]

theorem mem_order (L : Lib) (cfg : Config) (r : Redactor) (e : Option GoString)
    (h : NewRedactor L cfg = (some r, e)) (k : GoString) :
    k ∈ r.order ↔
      k ∈ customNames cfg ∨ (k ∈ baseOrder ∧ k ∈ enabledKinds cfg) := by
  obtain ⟨_, _, _, ho, hb, hcust⟩ := NewRedactor_ok L cfg r e h
  rw [ho, mem_keepFirst]
  simp only [List.mem_append, List.mem_filter, List.not_mem_nil, not_false_eq_true, and_true]
  by_cases hk : k ∈ customNames cfg
  · simp [hk]
  · simp only [hk, false_or, hb k hk]
    constructor
    · rintro ⟨h1, h2⟩
      refine ⟨h1, ?_⟩
      by_contra hne
      simp [hne] at h2
    · rintro ⟨h1, h2⟩
      refine ⟨h1, ?_⟩
      rw [if_pos h2]
      exact baseOrder_known k h1

/-! ## C1 -/

theorem keepFirst_append (seen xs ys : List GoString) :
    keepFirst seen (xs ++ ys) = keepFirst seen xs ++ keepFirst (xs.foldl setAdd seen) ys := by
  induction xs generalizing seen with
  | nil => simp [keepFirst]
  | cons k rest ih =>
    rw [List.cons_append]
    by_cases h : k ∈ seen
    · have hs : setAdd seen k = seen := by simp [setAdd, h]
      simp only [keepFirst, h, if_true, List.foldl_cons, hs]
      exact ih seen
    · simp only [keepFirst, h, if_false, List.foldl_cons, List.cons_append]
      rw [ih]

/-- The shape of every planned order: the custom names come first, the known
kinds that are not custom names follow. -/
theorem order_customs_first (L : Lib) (cfg : Config) (r : Redactor)
    (h : NewRedactor L cfg = (some r, none)) :
    ∃ customs base, r.order = customs ++ base ∧
      (∀ k ∈ customs, k ∈ customNames cfg) ∧
      (∀ k ∈ base, k ∈ baseOrder ∧ k ∉ customNames cfg) := by
  obtain ⟨_, _, _, ho, _, _⟩ := NewRedactor_ok L cfg r none h
  rw [keepFirst_append] at ho
  refine ⟨_, _, ho, ?_, ?_⟩
  · intro k hk
    exact ((mem_keepFirst _ _ _).1 hk).1
  · intro k hk
    obtain ⟨h1, h2⟩ := (mem_keepFirst _ _ _).1 hk
    rw [mem_foldl_setAdd] at h2
    exact ⟨(List.mem_filter.1 h1).1, fun hc => h2 (Or.inr hc)⟩

/-- C1: with the default kinds and one custom pattern `x`, `NewRedactor` plans
the custom kind `x` first, before all six built-in kinds (the claim says that
custom kinds come after every built-in kind). -/
theorem C1_custom_planned_before_builtins :
    (NewRedactor exampleLib cfgOneCustom).2 = none ∧
    (NewRedactor exampleLib cfgOneCustom).1.map Redactor.order =
      some [str "x", str "email", str "cc", str "phone", str "ipv4", str "ipv6", str "iban"] := by
  decide

/-! ## C2 -/

/-- The known kinds in a planned order that no custom pattern names are the
enabled ones, in the order of `baseOrder`. -/
theorem order_filter_not_custom (L : Lib) (cfg : Config) (r : Redactor)
    (h : NewRedactor L cfg = (some r, none)) :
    r.order.filter (fun k => !decide (k ∈ customNames cfg)) =
      baseOrder.filter (fun k => decide (k ∈ enabledKinds cfg) && !decide (k ∈ customNames cfg)) := by
  obtain ⟨_, _, _, ho, hb, _⟩ := NewRedactor_ok L cfg r none h
  rw [ho, keepFirst_filter _ _ [] [] (fun _ _ => Iff.rfl), List.filter_append]
  have h1 : (customNames cfg).filter (fun k => !decide (k ∈ customNames cfg)) = [] := by
    rw [List.filter_eq_nil_iff]
    intro k hk
    simp [hk]
  rw [h1, List.nil_append, List.filter_filter]
  rw [keepFirst_of_nodup _ _ (List.Nodup.sublist (List.filter_sublist _) baseOrder_nodup)
    (fun _ _ => List.not_mem_nil _)]
  apply List.filter_congr
  intro k hk
  by_cases hc : k ∈ customNames cfg
  · simp [hc]
  · by_cases he : k ∈ enabledKinds cfg
    · simp [hc, he, hb k hc, baseOrder_known k hk]
    · simp [hc, he, hb k hc]

/-- C2, as stated, fails: with the Brazil pack enabled the built-in kinds of the
planned order are not in the order email, cc, phone, cpf, cnpj, cep, rg, ipv4,
ipv6, iban (the plan has rg before cep). -/
theorem C2_counterexample :
    ¬ ∀ r, NewRedactor exampleLib cfgBr = (some r, none) →
      r.order.filter isBuiltin = specOrder.filter (fun k => decide (k ∈ r.order)) := by
  intro h
  have h1 := h _ rfl
  revert h1
  decide

/-- C2, amended: whenever `NewRedactor` succeeds, the built-in kinds of the
planned order that are not also the name of a custom pattern are exactly the
enabled ones among email, cc, phone, cpf, cnpj, rg, cep, ipv4, ipv6, iban, in
this relative order; the kinds that are not enabled are skipped, and the
result depends on `Types` only through which kinds are enabled. -/
theorem C2_builtin_order (L : Lib) (cfg : Config) (r : Redactor)
    (h : NewRedactor L cfg = (some r, none)) :
    r.order.filter (fun k => isBuiltin k && !decide (k ∈ customNames cfg)) =
      [str "email", str "cc", str "phone", str "cpf", str "cnpj", str "rg", str "cep",
        str "ipv4", str "ipv6", str "iban"].filter
        (fun k => decide (k ∈ enabledKinds cfg) && !decide (k ∈ customNames cfg)) := by
  have h1 := order_filter_not_custom L cfg r h
  have h2 : r.order.filter (fun k => isBuiltin k && !decide (k ∈ customNames cfg)) =
      (r.order.filter (fun k => !decide (k ∈ customNames cfg))).filter isBuiltin := by
    rw [List.filter_filter]
  rw [h2, h1, List.filter_filter]
  apply List.filter_congr
  intro k hk
  have hk1 : isBuiltin k = true := baseOrder_known k hk
  simp [hk1]

/-- Witness of C2 (amended) at the configuration with the Brazil pack. -/
theorem C2_builtin_order_witness :
    NewRedactor exampleLib cfgBr = (some planBr, none) ∧
      planBr.order.filter (fun k => isBuiltin k && !decide (k ∈ customNames cfgBr)) =
        [str "email", str "cc", str "phone", str "cpf", str "cnpj", str "rg", str "cep",
          str "ipv4", str "ipv6", str "iban"].filter
          (fun k => decide (k ∈ enabledKinds cfgBr) && !decide (k ∈ customNames cfgBr)) :=
  ⟨by decide, C2_builtin_order exampleLib cfgBr planBr (by decide)⟩

/-! ## C3 -/

theorem effective_perm (c1 c2 : List (GoString × GoString)) (h : c1.Perm c2) :
    (effective c1).Perm (effective c2) :=
  List.Perm.filterMap _ h

/-- C3, as stated, fails: the map with the two entries `a` and `b`, enumerated
`a, b` in one construction and `b, a` in another, gives two different planned
orders. -/
theorem C3_counterexample :
    cfgTwoCustomAB.Custom.Perm cfgTwoCustomBA.Custom ∧
    cfgTwoCustomBA = { cfgTwoCustomAB with Custom := cfgTwoCustomBA.Custom } ∧
    (NewRedactor exampleLib cfgTwoCustomAB).1.map Redactor.order =
      some [str "a", str "b", str "email", str "cc", str "phone", str "ipv4", str "ipv6",
        str "iban"] ∧
    (NewRedactor exampleLib cfgTwoCustomBA).1.map Redactor.order =
      some [str "b", str "a", str "email", str "cc", str "phone", str "ipv4", str "ipv6",
        str "iban"] ∧
    (NewRedactor exampleLib cfgTwoCustomAB).1.map Redactor.order ≠
      (NewRedactor exampleLib cfgTwoCustomBA).1.map Redactor.order := by
  decide

/-- C3, amended: two constructions from the same configuration, whatever the
orders in which the entries of `Custom` are enumerated, succeed together and
yield planned orders that hold the same kinds (each is a permutation of the
other) and that agree on the relative order of all kinds that are not custom
names; the two orders are equal when at most one custom entry has a non-empty
trimmed name and expression. -/
theorem C3_order_up_to_enumeration (L : Lib) (cfg : Config) (custom2 : List (GoString × GoString))
    (r1 : Redactor) (hperm : cfg.Custom.Perm custom2)
    (h1 : NewRedactor L cfg = (some r1, none)) :
    ∃ r2, NewRedactor L { cfg with Custom := custom2 } = (some r2, none) ∧
      r1.order.Perm r2.order ∧
      r1.order.filter (fun k => !decide (k ∈ customNames cfg)) =
        r2.order.filter (fun k => !decide (k ∈ customNames cfg)) ∧
      ((customNames cfg).length ≤ 1 → r1.order = r2.order) := by
  have heff : (effective cfg.Custom).Perm (effective custom2) := effective_perm _ _ hperm
  have hnames : (customNames cfg).Perm (customNames { cfg with Custom := custom2 }) :=
    List.Perm.map _ heff
  have hen : enabledKinds { cfg with Custom := custom2 } = enabledKinds cfg := rfl
  -- the second construction succeeds
  have hok1 : ∀ e ∈ effective cfg.Custom, L.compileErr e.2 = none := by
    rcases NewRedactor_cases L cfg with ⟨h, _⟩ | ⟨_, msg, h, _⟩
    · exact h
    · rw [h1] at h; cases h
  obtain ⟨r2, h2⟩ : ∃ r2, NewRedactor L { cfg with Custom := custom2 } = (some r2, none) := by
    rcases NewRedactor_cases L { cfg with Custom := custom2 } with ⟨_, h⟩ | ⟨⟨e, he, hne⟩, _⟩
    · exact h
    · exact absurd (hok1 e (heff.mem_iff.2 he)) hne
  have hmem : ∀ k, k ∈ r1.order ↔ k ∈ r2.order := by
    intro k
    rw [mem_order L cfg r1 none h1, mem_order L _ r2 none h2, hen, hnames.mem_iff]
  have hfilter : r1.order.filter (fun k => !decide (k ∈ customNames cfg)) =
      r2.order.filter (fun k => !decide (k ∈ customNames cfg)) := by
    rw [order_filter_not_custom L cfg r1 h1]
    have h3 := order_filter_not_custom L _ r2 h2
    rw [hen] at h3
    have hfun : (fun k => !decide (k ∈ customNames cfg)) =
        (fun k => !decide (k ∈ customNames { cfg with Custom := custom2 })) := by
      funext k
      simp only [hnames.mem_iff]
    have hfun2 : (fun k => decide (k ∈ enabledKinds cfg) && !decide (k ∈ customNames cfg)) =
        (fun k => decide (k ∈ enabledKinds cfg) &&
          !decide (k ∈ customNames { cfg with Custom := custom2 })) := by
      funext k
      simp only [hnames.mem_iff]
    rw [hfun, hfun2, h3]
  obtain ⟨_, _, _, ho1, hb1, hc1⟩ := NewRedactor_ok L cfg r1 none h1
  obtain ⟨_, _, _, ho2, hb2, hc2⟩ := NewRedactor_ok L _ r2 none h2
  refine ⟨r2, h2, ?_, hfilter, ?_⟩
  · refine (List.perm_ext_iff_of_nodup ?_ ?_).2 hmem
    · rw [ho1]; exact nodup_keepFirst _ _
    · rw [ho2]; exact nodup_keepFirst _ _
  · intro hlen
    have heq : customNames { cfg with Custom := custom2 } = customNames cfg := by
      generalize customNames { cfg with Custom := custom2 } = n2 at hnames
      generalize customNames cfg = n1 at hnames hlen
      match n1, hlen, hnames with
      | [], _, hp => exact hp.symm.eq_nil
      | [a], _, hp => exact hp.symm.eq_singleton
    rw [ho1, ho2, heq]
    congr 2
    apply List.filter_congr
    intro k _
    by_cases hk : k ∈ customNames cfg
    · obtain ⟨x1, _, hx1⟩ := hc1 k hk
      obtain ⟨x2, _, hx2⟩ := hc2 k (heq ▸ hk)
      rw [hx1, hx2]
      rfl
    · rw [hb1 k hk, hb2 k (heq ▸ hk), hen]

/-- Witness of C3 (amended) at the two enumerations of the map with the
entries `a` and `b`. -/
theorem C3_order_up_to_enumeration_witness :
    cfgTwoCustomAB.Custom.Perm cfgTwoCustomBA.Custom ∧
    NewRedactor exampleLib cfgTwoCustomAB = (some planTwoCustomAB, none) ∧
    ∃ r2, NewRedactor exampleLib { cfgTwoCustomAB with Custom := cfgTwoCustomBA.Custom } =
        (some r2, none) ∧
      planTwoCustomAB.order.Perm r2.order ∧
      planTwoCustomAB.order.filter (fun k => !decide (k ∈ customNames cfgTwoCustomAB)) =
        r2.order.filter (fun k => !decide (k ∈ customNames cfgTwoCustomAB)) ∧
      ((customNames cfgTwoCustomAB).length ≤ 1 → planTwoCustomAB.order = r2.order) :=
  ⟨by decide, by decide,
    C3_order_up_to_enumeration exampleLib cfgTwoCustomAB cfgTwoCustomBA.Custom planTwoCustomAB
      (by decide) (by decide)⟩

/-! ## C5 -/

/-- C5: `NewRedactor` returns an error exactly when some entry of `Custom` whose
name and expression are both non-empty after trimming has an expression that
does not compile; then no engine is returned and the message names the trimmed
name of such an entry; in every other case an engine is returned and no
error. -/
theorem C5_error_iff_custom_fails (L : Lib) (cfg : Config) :
    ((NewRedactor L cfg).2 ≠ none ↔
      ∃ raw ∈ cfg.Custom, TrimSpace raw.1 ≠ [] ∧ TrimSpace raw.2 ≠ [] ∧
        L.compileErr (TrimSpace raw.2) ≠ none) ∧
    ((NewRedactor L cfg).2 ≠ none →
      (NewRedactor L cfg).1 = none ∧
      ∃ raw ∈ cfg.Custom, TrimSpace raw.1 ≠ [] ∧ TrimSpace raw.2 ≠ [] ∧
        ∃ err, L.compileErr (TrimSpace raw.2) = some err ∧
          (NewRedactor L cfg).2 =
            some (str "invalid custom regex for " ++ L.quote (TrimSpace raw.1) ++ str ": " ++ err)) ∧
    ((NewRedactor L cfg).2 = none → ∃ r, (NewRedactor L cfg).1 = some r) := by
  rcases NewRedactor_cases L cfg with ⟨hall, r, hr⟩ | ⟨⟨e, he, hne⟩, msg, hmsg, e1, he1, err, herr, hm⟩
  · rw [hr]
    refine ⟨?_, ?_, ?_⟩
    · constructor
      · intro h; exact absurd rfl h
      · rintro ⟨raw, hraw, h1, h2, h3⟩
        exact absurd (hall (TrimSpace raw.1, TrimSpace raw.2)
          ((mem_effective _ _ _).2 ⟨raw, hraw, rfl, rfl, h1, h2⟩)) h3
    · intro h; exact absurd rfl h
    · intro _; exact ⟨r, rfl⟩
  · rw [hmsg]
    obtain ⟨n1, x1⟩ := e1
    obtain ⟨raw, hraw, h1, h2, h3, h4⟩ := (mem_effective _ _ _).1 he1
    simp only at herr hm
    have hfound : ∃ raw ∈ cfg.Custom, TrimSpace raw.1 ≠ [] ∧ TrimSpace raw.2 ≠ [] ∧
        ∃ err, L.compileErr (TrimSpace raw.2) = some err ∧
          msg = str "invalid custom regex for " ++ L.quote (TrimSpace raw.1) ++ str ": " ++ err := by
      refine ⟨raw, hraw, h1 ▸ h3, h2 ▸ h4, err, ?_, ?_⟩
      · rw [h2]; exact herr
      · rw [h1]; exact hm
    refine ⟨?_, ?_, ?_⟩
    · constructor
      · intro _
        obtain ⟨raw, hraw, h1, h2, err, h3, _⟩ := hfound
        exact ⟨raw, hraw, h1, h2, by rw [h3]; simp⟩
      · intro _; simp
    · intro _
      obtain ⟨raw, hraw, h1, h2, err, h3, h4⟩ := hfound
      exact ⟨rfl, raw, hraw, h1, h2, err, h3, by rw [h4]⟩
    · intro h; cases h

/-! ## C6 -/

theorem count_eq_one_of_nodup (l : List GoString) (k : GoString) (hnd : l.Nodup) (hk : k ∈ l) :
    l.count k = 1 := by
  induction l with
  | nil => cases hk
  | cons a rest ih =>
    obtain ⟨ha, hrest⟩ := List.nodup_cons.1 hnd
    rw [List.count_cons]
    by_cases hak : a = k
    · subst hak
      rw [List.count_eq_zero_of_not_mem ha]
      simp
    · have hk1 : k ∈ rest := by
        rcases List.mem_cons.1 hk with h | h
        · exact absurd h.symm hak
        · exact h
      rw [ih hrest hk1]
      simp [hak]

/-- C6: whenever `NewRedactor` succeeds no kind appears twice in the planned
order, and every custom name (in particular one that is also the name of an
enabled built-in kind) appears in it exactly once and is bound in `patterns`
to the rule compiled from a custom entry of that name. -/
theorem C6_order_nodup (L : Lib) (cfg : Config) (r : Redactor)
    (h : NewRedactor L cfg = (some r, none)) :
    r.order.Nodup ∧
    ∀ k, k ∈ customNames cfg →
      r.order.count k = 1 ∧
      ∃ raw ∈ cfg.Custom, TrimSpace raw.1 = k ∧ TrimSpace raw.2 ≠ [] ∧
        mapGet r.patterns k = some ⟨TrimSpace raw.2⟩ := by
  obtain ⟨_, _, _, ho, _, hc⟩ := NewRedactor_ok L cfg r none h
  have hnd : r.order.Nodup := by rw [ho]; exact nodup_keepFirst _ _
  refine ⟨hnd, ?_⟩
  intro k hk
  refine ⟨count_eq_one_of_nodup _ _ hnd ((mem_order L cfg r none h k).2 (Or.inl hk)), ?_⟩
  obtain ⟨x, hx, hget⟩ := hc k hk
  obtain ⟨raw, hraw, h1, h2, _, h4⟩ := (mem_effective _ _ _).1 hx
  exact ⟨raw, hraw, h1, h2 ▸ h4, by rw [h2]; exact hget⟩

/-- Witness of C6 at a configuration whose custom pattern is named `email`. -/
theorem C6_order_nodup_witness :
    NewRedactor exampleLib cfgShadow = (some planShadow, none) ∧
    str "email" ∈ customNames cfgShadow ∧ isBuiltin (str "email") = true ∧
    str "email" ∈ enabledKinds cfgShadow ∧
    planShadow.order.Nodup ∧
    ∀ k, k ∈ customNames cfgShadow →
      planShadow.order.count k = 1 ∧
      ∃ raw ∈ cfgShadow.Custom, TrimSpace raw.1 = k ∧ TrimSpace raw.2 ≠ [] ∧
        mapGet planShadow.patterns k = some ⟨TrimSpace raw.2⟩ :=
  ⟨by decide, by decide, by decide, by decide,
    C6_order_nodup exampleLib cfgShadow planShadow (by decide)⟩

/-! ## C7 -/

/-- C7: the enabled set is the seed set (the defaults when `Types` is blank,
otherwise exactly the trimmed non-empty items of `Types`) together with the
kinds of every known pack named in `Locale`; a pack adds kinds and removes
none, an unknown pack name adds nothing. With `Types = "email"` and
`Locale = "br"` and no custom pattern the plan holds exactly the kinds email,
cpf, cnpj, cep, rg. -/
theorem C7_enabled_is_seed_union_packs :
    (∀ (cfg : Config) (k : GoString),
      k ∈ enabledKinds cfg ↔
        ((TrimSpace cfg.Types = [] ∧ k ∈ defaultSet) ∨
          (TrimSpace cfg.Types ≠ [] ∧ k ≠ [] ∧ ∃ t ∈ Split cfg.Types 44, TrimSpace t = k)) ∨
        ∃ p ∈ Split cfg.Locale 44, ∃ names,
          mapGet packs (TrimSpace p) = some names ∧ k ∈ names) ∧
    (∀ (cfg : Config) (k : GoString), k ∈ seedEnabled cfg → k ∈ enabledKinds cfg) ∧
    (∃ r, NewRedactor exampleLib cfgEmailBr = (some r, none) ∧
      ∀ k, k ∈ r.order ↔ k ∈ [str "email", str "cpf", str "cnpj", str "cep", str "rg"]) := by
  refine ⟨?_, ?_, ?_⟩
  · intro cfg k
    rw [mem_enabledKinds, mem_seedEnabled]
  · intro cfg k hk
    exact (mem_enabledKinds cfg k).2 (Or.inl hk)
  · refine ⟨planEmailBr, by decide, ?_⟩
    intro k
    simp only [planEmailBr, List.mem_cons, List.mem_singleton, List.not_mem_nil, or_false]
    tauto

/-! ## C8 -/

theorem merge_items_unknown (items : List GoString) (set : List GoString)
    (h : ∀ p ∈ items, mapGet packs (TrimSpace p) = none) :
    items.foldl
        (fun enabled p =>
          if TrimSpace p = [] then enabled
          else
            match mapGet packs (TrimSpace p) with
            | some names => names.foldl setAdd enabled
            | none => enabled) set = set := by
  induction items generalizing set with
  | nil => rfl
  | cons p rest ih =>
    simp only [List.foldl_cons]
    rw [h p (List.mem_cons_self _ _)]
    simp only [ite_self]
    exact ih set (fun q hq => h q (List.mem_cons_of_mem _ hq))

theorem defaultSet_not_in_packs :
    ∀ k ∈ defaultSet, ∀ e ∈ packs, k ∉ e.2 := by decide

theorem mapGet_mem {β : Type} (m : List (GoString × β)) (k : GoString) (v : β)
    (h : mapGet m k = some v) : (k, v) ∈ m := by
  induction m with
  | nil => cases h
  | cons e rest ih =>
    obtain ⟨k1, v1⟩ := e
    by_cases hk : k1 = k
    · simp only [mapGet, hk, if_true, Option.some.injEq] at h
      subst hk h
      exact List.mem_cons_self _ _
    · simp only [mapGet, hk, if_false] at h
      exact List.mem_cons_of_mem _ (ih h)

/-- C8: with `Types` blank, no known pack named in `Locale` and no custom
pattern, the enabled kinds are the default set and the planned order is email,
cc, phone, ipv4, ipv6, iban; with `Types` not blank, a default kind is enabled
only if `Types` names it, and is planned only if `Types` names it or it is a
custom name. -/
theorem C8_defaults (L : Lib) (cfg : Config) :
    (TrimSpace cfg.Types = [] →
      (∀ p ∈ Split cfg.Locale 44, mapGet packs (TrimSpace p) = none) →
      cfg.Custom = [] →
      enabledKinds cfg = defaultSet ∧
      ∃ r, NewRedactor L cfg = (some r, none) ∧
        r.order = [str "email", str "cc", str "phone", str "ipv4", str "ipv6", str "iban"]) ∧
    (TrimSpace cfg.Types ≠ [] →
      ∀ k ∈ defaultSet,
        (k ∈ enabledKinds cfg → ∃ t ∈ Split cfg.Types 44, TrimSpace t = k) ∧
        (∀ r, NewRedactor L cfg = (some r, none) → k ∈ r.order →
          (∃ t ∈ Split cfg.Types 44, TrimSpace t = k) ∨ k ∈ customNames cfg)) := by
  constructor
  · intro hblank hpacks hcustom
    have hen : enabledKinds cfg = defaultSet := by
      unfold enabledKinds mergeLocale
      rw [merge_items_unknown _ _ hpacks]
      unfold seedEnabled
      rw [if_pos hblank]
      exact seedEnabled_default
    refine ⟨hen, ?_⟩
    refine ⟨{ cfg := cfg, patterns := builtinPatterns defaultSet,
              order := [str "email", str "cc", str "phone", str "ipv4", str "ipv6", str "iban"],
              counts := [] }, ?_, rfl⟩
    unfold NewRedactor
    rw [hcustom, hen]
    simp only [addCustom]
    have horder : (dedupLoop (appendBase (builtinPatterns defaultSet) []) ([], [])).2 =
        [str "email", str "cc", str "phone", str "ipv4", str "ipv6", str "iban"] := by decide
    rw [horder]
  · intro hset k hk
    have hen : k ∈ enabledKinds cfg → ∃ t ∈ Split cfg.Types 44, TrimSpace t = k := by
      intro h
      rw [mem_enabledKinds, mem_seedEnabled] at h
      rcases h with (⟨h1, _⟩ | ⟨_, _, h2⟩) | ⟨p, _, names, h1, h2⟩
      · exact absurd h1 hset
      · exact h2
      · exact absurd h2 (defaultSet_not_in_packs k hk _ (mapGet_mem _ _ _ h1))
    refine ⟨hen, ?_⟩
    intro r hr hmem
    rcases (mem_order L cfg r none hr k).1 hmem with h | ⟨_, h⟩
    · exact Or.inr h
    · exact Or.inl (hen h)

/-- Witness of C8 at a blank configuration and at `Types = "email"`. -/
theorem C8_defaults_witness :
    (TrimSpace cfgBlank.Types = [] ∧
      (∀ p ∈ Split cfgBlank.Locale 44, mapGet packs (TrimSpace p) = none) ∧
      cfgBlank.Custom = [] ∧
      enabledKinds cfgBlank = defaultSet ∧
      ∃ r, NewRedactor exampleLib cfgBlank = (some r, none) ∧
        r.order = [str "email", str "cc", str "phone", str "ipv4", str "ipv6", str "iban"]) ∧
    (TrimSpace cfgEmailBr.Types ≠ [] ∧
      ∀ k ∈ defaultSet,
        (k ∈ enabledKinds cfgEmailBr → ∃ t ∈ Split cfgEmailBr.Types 44, TrimSpace t = k) ∧
        (∀ r, NewRedactor exampleLib cfgEmailBr = (some r, none) → k ∈ r.order →
          (∃ t ∈ Split cfgEmailBr.Types 44, TrimSpace t = k) ∨ k ∈ customNames cfgEmailBr)) :=
  ⟨⟨by decide, by decide, by decide,
      (C8_defaults exampleLib cfgBlank).1 (by decide) (by decide) (by decide)⟩,
    ⟨by decide, (C8_defaults exampleLib cfgEmailBr).2 (by decide)⟩⟩

/-! ## C4 -/

theorem onlyDigits_isDigits (s : GoString) : isDigits (onlyDigits s) := by
  intro b hb
  unfold onlyDigits at hb
  have h := (List.mem_filter.1 hb).2
  simpa using h

theorem luhn_fold (ds : List Nat) (hds : ∀ b ∈ ds, 48 ≤ b ∧ b ≤ 57) (sum : Nat) :
    (ds.foldl luhnStep (sum, false)).1 = sum + luhnSumFromRight (ds.map fun b => b - 48) := by
  induction ds using luhnSumFromRight.induct generalizing sum with
  | case1 => simp [luhnSumFromRight]
  | case2 d =>
    have h := hds d (List.mem_cons_self _ _)
    simp only [List.foldl_cons, List.foldl_nil, luhnStep, List.map_cons, List.map_nil,
      luhnSumFromRight]
    simp only [Bool.false_eq_true, if_false]
    omega
  | case3 d e rest ih =>
    have hd := hds d (List.mem_cons_self _ _)
    have he := hds e (List.mem_cons_of_mem _ (List.mem_cons_self _ _))
    have hrest : ∀ b ∈ rest, 48 ≤ b ∧ b ≤ 57 := fun b hb =>
      hds b (List.mem_cons_of_mem _ (List.mem_cons_of_mem _ hb))
    simp only [List.foldl_cons, luhnStep, List.map_cons, luhnSumFromRight]
    simp only [Bool.false_eq_true, if_false, Bool.not_false, if_true, Bool.not_true]
    rw [ih hrest]
    have e1 : (d + 256 - 48) % 256 = d - 48 := by omega
    have e2 : (e + 256 - 48) % 256 = e - 48 := by omega
    rw [e1, e2]
    have e3 : (if (e - 48) * 2 > 9 then (e - 48) * 2 - 9 else (e - 48) * 2) =
        (if 2 * (e - 48) > 9 then 2 * (e - 48) - 9 else 2 * (e - 48)) := by
      rw [Nat.mul_comm]
    rw [e3]
    omega

/-- On a string of decimal digits `luhnOK` is the Luhn test of the
specification. -/
theorem luhnOK_iff_luhnValid (d : GoString) (hd : isDigits d) :
    luhnOK d = true ↔ luhnValid d := by
  unfold luhnOK luhnValid
  rw [luhn_fold d.reverse (fun b hb => hd b (List.mem_reverse.1 hb)) 0]
  simp

/-- C4: the validator of the `cc` callback accepts a candidate `m` exactly when
`onlyDigits m` has between 13 and 19 digits and passes the Luhn test as the
specification words it; it accepts 4539148803436467, rejects 4539148803436468,
and rejects every candidate with fewer than 13 or more than 19 digits. -/
theorem C4_card_validator :
    (∀ m : GoString,
      ccAccept m = true ↔
        13 ≤ (onlyDigits m).length ∧ (onlyDigits m).length ≤ 19 ∧ luhnValid (onlyDigits m)) ∧
    ccAccept (str "4539148803436467") = true ∧
    ccAccept (str "4539148803436468") = false ∧
    (∀ m : GoString,
      (onlyDigits m).length < 13 ∨ 19 < (onlyDigits m).length → ccAccept m = false) := by
  refine ⟨?_, by decide, by decide, ?_⟩
  · intro m
    rw [← luhnOK_iff_luhnValid _ (onlyDigits_isDigits m)]
    unfold ccAccept
    by_cases h1 : (onlyDigits m).length < 13
    · simp only [h1, decide_True, Bool.true_or, Bool.not_true]
      constructor
      · intro h; cases h
      · rintro ⟨h, _⟩; omega
    · by_cases h2 : (onlyDigits m).length > 19
      · simp only [h2, decide_True, Bool.true_or, Bool.or_true, Bool.not_true]
        constructor
        · intro h; cases h
        · rintro ⟨_, h, _⟩; omega
      · simp only [h1, h2, decide_False, Bool.false_or, Bool.not_not]
        constructor
        · intro h; exact ⟨by omega, by omega, h⟩
        · rintro ⟨_, _, h⟩; exact h
  · intro m h
    unfold ccAccept
    rcases h with h | h
    · simp [h]
    · simp [h]

/-! ## Modes -/

theorem mask_not_hash : str "mask" ≠ str "hash" := by decide

theorem mask_not_tag : str "mask" ≠ str "tag" := by decide

/-! ## C10 -/

theorem cc_not_email : str "cc" ≠ str "email" := by decide

/-- C10: in mask mode with kind cc, with `d = onlyDigits text`: when `d` has
fewer than 4 digits the replacement is `<CC>`; otherwise it is `len d - 4`
asterisks followed by the last 4 digits of `d`, a string of `len d` bytes each
of which is an asterisk or a decimal digit. -/
theorem C10_mask_cc (L : Lib) (r : Redactor) (text : GoString)
    (hmode : r.cfg.Mode = str "mask") :
    ((onlyDigits text).length < 4 → replace L r (str "cc") text = some (str "<CC>")) ∧
    (4 ≤ (onlyDigits text).length →
      replace L r (str "cc") text =
        some (List.replicate ((onlyDigits text).length - 4) 42 ++
          (onlyDigits text).drop ((onlyDigits text).length - 4)) ∧
      (List.replicate ((onlyDigits text).length - 4) 42 ++
          (onlyDigits text).drop ((onlyDigits text).length - 4)).length =
        (onlyDigits text).length ∧
      ((onlyDigits text).drop ((onlyDigits text).length - 4)).length = 4 ∧
      ∀ b ∈ List.replicate ((onlyDigits text).length - 4) 42 ++
          (onlyDigits text).drop ((onlyDigits text).length - 4),
        b = 42 ∨ (48 ≤ b ∧ b ≤ 57)) := by
  have hm1 : ¬ r.cfg.Mode = str "hash" := by rw [hmode]; exact mask_not_hash
  have hm2 : ¬ r.cfg.Mode = str "tag" := by rw [hmode]; exact mask_not_tag
  constructor
  · intro hlen
    unfold replace
    rw [if_neg hm1, if_neg hm2, if_neg cc_not_email, if_pos rfl]
    simp only [hlen, if_true]
  · intro hlen
    refine ⟨?_, ?_, ?_, ?_⟩
    · unfold replace
      rw [if_neg hm1, if_neg hm2, if_neg cc_not_email, if_pos rfl]
      simp only
      rw [if_neg (by omega)]
      have h2 : Repeat 42 (((onlyDigits text).length : Int) - 4) =
          some (List.replicate ((onlyDigits text).length - 4) 42) := by
        unfold Repeat
        rw [if_neg (by omega)]
        congr 2
        omega
      have h3 : sliceFrom (onlyDigits text) (((onlyDigits text).length : Int) - 4) =
          some ((onlyDigits text).drop ((onlyDigits text).length - 4)) := by
        unfold sliceFrom
        rw [if_pos (by constructor <;> omega)]
        congr 2
        omega
      rw [h2, h3]
      rfl
    · simp only [List.length_append, List.length_replicate, List.length_drop]
      omega
    · simp only [List.length_drop]
      omega
    · intro b hb
      rcases List.mem_append.1 hb with h | h
      · exact Or.inl (List.eq_of_mem_replicate h)
      · exact Or.inr (onlyDigits_isDigits text b (List.mem_of_mem_drop h))

/-- Witness of C10 at the example of the specification and at a short digit run. -/
theorem C10_mask_cc_witness :
    planBr.cfg.Mode = str "mask" ∧
    onlyDigits (str "4539 1488 0343 6467") = str "4539148803436467" ∧
    replace exampleLib planBr (str "cc") (str "4539 1488 0343 6467") =
      some (List.replicate 12 42 ++ str "6467") ∧
    (onlyDigits (str "12-3")).length < 4 ∧
    replace exampleLib planBr (str "cc") (str "12-3") = some (str "<CC>") :=
  ⟨by decide, by decide,
    ((C10_mask_cc exampleLib planBr (str "4539 1488 0343 6467") (by decide)).2 (by decide)).1,
    by decide,
    (C10_mask_cc exampleLib planBr (str "12-3") (by decide)).1 (by decide)⟩

/-! ## C12 -/

theorem hexDigit_isHexChar (n : Nat) (h : n < 16) : isHexChar (hexDigit n) := by
  unfold isHexChar hexDigit
  split <;> omega

theorem hexEncode_length (bs : GoString) : (hexEncode bs).length = 2 * bs.length := by
  induction bs with
  | nil => rfl
  | cons b rest ih =>
    simp only [hexEncode, List.flatMap_cons, List.length_append, List.length_cons,
      List.length_nil] at ih ⊢
    omega

theorem hexEncode_isHex (bs : GoString) (h : ∀ b ∈ bs, b < 256) :
    ∀ c ∈ hexEncode bs, isHexChar c := by
  intro c hc
  simp only [hexEncode, List.mem_flatMap, List.mem_cons, List.mem_singleton,
    List.not_mem_nil, or_false] at hc
  obtain ⟨b, hb, hc | hc⟩ := hc
  · rw [hc]; exact hexDigit_isHexChar _ (by have := h b hb; omega)
  · rw [hc]; exact hexDigit_isHexChar _ (by omega)

theorem hexValue_hexDigit (n : Nat) (h : n < 16) : hexValue (hexDigit n) = n := by
  unfold hexValue hexDigit
  split_ifs <;> omega

/-- The hexadecimal encoding read back: the characters `2 * i` and `2 * i + 1`
give the byte `i`. -/
theorem hexEncode_decode (bs : GoString) (h : ∀ b ∈ bs, b < 256) (i : Nat)
    (hi : i < bs.length) :
    hexValue ((hexEncode bs).getD (2 * i) 0) * 16 + hexValue ((hexEncode bs).getD (2 * i + 1) 0) =
      bs.getD i 0 := by
  induction bs generalizing i with
  | nil => simp at hi
  | cons b rest ih =>
    have hb : b < 256 := h b (List.mem_cons_self _ _)
    have hcons : hexEncode (b :: rest) =
        hexDigit (b / 16) :: hexDigit (b % 16) :: hexEncode rest := by
      simp [hexEncode]
    rw [hcons]
    cases i with
    | zero =>
      simp only [Nat.mul_zero, Nat.zero_add, List.getD_cons_zero, List.getD_cons_succ]
      rw [hexValue_hexDigit _ (by omega), hexValue_hexDigit _ (by omega)]
      omega
    | succ j =>
      have e1 : 2 * (j + 1) = (2 * j + 1) + 1 := by omega
      rw [e1]
      simp only [List.getD_cons_succ]
      exact ih (fun x hx => h x (List.mem_cons_of_mem _ hx)) j
        (by simp only [List.length_cons] at hi; omega)

theorem Sum256_spec (x : GoString) : (Sum256 x).length = 32 ∧ ∀ b ∈ Sum256 x, b < 256 := by
  constructor
  · simp [Sum256, List.range, List.range.loop]
  · intro b hb
    simp only [Sum256, List.mem_flatMap, List.mem_cons, List.mem_singleton, List.not_mem_nil,
      or_false] at hb
    obtain ⟨_, _, h | h | h | h⟩ := hb <;> rw [h] <;> exact Nat.mod_lt _ (by decide)

/-- C12: in hash mode, for every kind and matched text, `replace` returns
`<` + upper-cased kind + `:` + H + `>` where H is the hexadecimal encoding of
the first 8 bytes of the digest of salt followed by the text: 16 lower-case
hexadecimal characters of which the pair at `2 * i`, `2 * i + 1` reads back
as byte `i` of the digest; the result depends on the salt, the kind and the
text only, so any two engines in hash mode with the same salt return the
same substitution. The digest is the 32-byte array that `sha256.Sum256`
returns. -/
theorem C12_hash_mode (L : Lib) (r : Redactor) (kind text : GoString)
    (hmode : r.cfg.Mode = str "hash")
    (hsum : ∀ x, (L.sum256 x).length = 32 ∧ ∀ b ∈ L.sum256 x, b < 256) :
    replace L r kind text =
      some (str "<" ++ ToUpper L kind ++ str ":" ++
        hexEncode ((L.sum256 (r.cfg.Salt ++ text)).take 8) ++ str ">") ∧
    (hexEncode ((L.sum256 (r.cfg.Salt ++ text)).take 8)).length = 16 ∧
    (∀ c ∈ hexEncode ((L.sum256 (r.cfg.Salt ++ text)).take 8), isHexChar c) ∧
    (∀ i, i < 8 →
      hexValue ((hexEncode ((L.sum256 (r.cfg.Salt ++ text)).take 8)).getD (2 * i) 0) * 16 +
          hexValue ((hexEncode ((L.sum256 (r.cfg.Salt ++ text)).take 8)).getD (2 * i + 1) 0) =
        (L.sum256 (r.cfg.Salt ++ text)).getD i 0) ∧
    (∀ r2 : Redactor, r2.cfg.Mode = str "hash" → r2.cfg.Salt = r.cfg.Salt →
      replace L r2 kind text = replace L r kind text) := by
  refine ⟨?_, ?_, ?_, ?_, ?_⟩
  · unfold replace
    rw [if_pos hmode]
  · rw [hexEncode_length, List.length_take, (hsum _).1]
    rfl
  · exact hexEncode_isHex _ (fun b hb => (hsum _).2 b (List.mem_of_mem_take hb))
  · intro i hi
    have hlen : ((L.sum256 (r.cfg.Salt ++ text)).take 8).length = 8 := by
      rw [List.length_take, (hsum _).1]
      rfl
    rw [hexEncode_decode _ (fun b hb => (hsum _).2 b (List.mem_of_mem_take hb)) i
      (by rw [hlen]; exact hi)]
    simp only [List.getD_eq_getElem?_getD, List.getElem?_take, hi, if_true]
  · intro r2 h2 hsalt
    unfold replace
    rw [if_pos hmode, if_pos h2, hsalt]

/-- Witness of C12 at an engine in hash mode with the salt `s1`, the kind
`email` and the text `ab@example.com`: the SHA-256 digest of
`s1ab@example.com` starts with the bytes 33 2c fd e0 90 fb b3 e5. -/
theorem C12_hash_mode_witness :
    planHash.cfg.Mode = str "hash" ∧ planHash.cfg.Salt = str "s1" ∧
    (∀ x, (exampleLib.sum256 x).length = 32 ∧ ∀ b ∈ exampleLib.sum256 x, b < 256) ∧
    (exampleLib.sum256 (str "s1ab@example.com")).take 8 =
      [0x33, 0x2c, 0xfd, 0xe0, 0x90, 0xfb, 0xb3, 0xe5] ∧
    replace exampleLib planHash (str "email") (str "ab@example.com") =
      some (str "<EMAIL:332cfde090fbb3e5>") :=
  ⟨by decide, by decide, Sum256_spec, by decide,
    (C12_hash_mode exampleLib planHash (str "email") (str "ab@example.com") (by decide)
      Sum256_spec).1.trans (by decide)⟩

/-! ## C13 -/

theorem tag_not_hash : str "tag" ≠ str "hash" := by decide

/-- C13: in tag mode, for every kind and every matched text, `replace` returns
`<` + upper-cased kind + `>`; the result does not depend on the matched text
or on the salt. -/
theorem C13_tag_mode (L : Lib) (r : Redactor) (kind text : GoString)
    (hmode : r.cfg.Mode = str "tag") :
    replace L r kind text = some (str "<" ++ ToUpper L kind ++ str ">") ∧
    (∀ (r2 : Redactor) (text2 : GoString), r2.cfg.Mode = str "tag" →
      replace L r2 kind text2 = replace L r kind text) := by
  have h1 : ¬ r.cfg.Mode = str "hash" := by rw [hmode]; exact tag_not_hash
  constructor
  · unfold replace
    rw [if_neg h1, if_pos hmode]
  · intro r2 text2 h2
    have h3 : ¬ r2.cfg.Mode = str "hash" := by rw [h2]; exact tag_not_hash
    unfold replace
    rw [if_neg h1, if_pos hmode, if_neg h3, if_pos h2]

/-- Witness of C13 at an engine in tag mode and the kind `email`. -/
theorem C13_tag_mode_witness :
    planTag.cfg.Mode = str "tag" ∧
    replace exampleLib planTag (str "email") (str "ab@example.com") = some (str "<EMAIL>") :=
  ⟨by decide, (C13_tag_mode exampleLib planTag (str "email") (str "ab@example.com")
    (by decide)).1⟩

/-! ## C14 -/

/-- In mask mode, for every kind whose name is none of email, cc and phone,
`replace` returns the tag `<` + upper-cased kind + `>` for every matched
text. -/
theorem replace_mask_generic (L : Lib) (r : Redactor) (kind text : GoString)
    (hmode : r.cfg.Mode = str "mask")
    (h1 : kind ≠ str "email") (h2 : kind ≠ str "cc") (h3 : kind ≠ str "phone") :
    replace L r kind text = some (str "<" ++ ToUpper L kind ++ str ">") := by
  have hm1 : ¬ r.cfg.Mode = str "hash" := by rw [hmode]; exact mask_not_hash
  have hm2 : ¬ r.cfg.Mode = str "tag" := by rw [hmode]; exact mask_not_tag
  unfold replace
  rw [if_neg hm1, if_neg hm2, if_neg h1, if_neg h2, if_neg h3]

/-- C14: a custom pattern named `phone` with an expression for eight digits is
accepted by `NewRedactor`, which binds `phone` to the custom rule; in mask mode
`RedactString` turns `n 12345678` into `n ****5678`: the match of this custom
kind is masked by the phone rule of `replace`, not replaced by the tag
`<PHONE>` (the claim, and the comment on the default case of `replace`, say
that custom kinds get the tag). -/
theorem C14_custom_phone_is_masked :
    NewRedactor exampleLib cfgCustomPhone = (some planCustomPhone, none) ∧
    str "phone" ∈ customNames cfgCustomPhone ∧
    mapGet planCustomPhone.patterns (str "phone") = some customPhoneRule ∧
    planCustomPhone.cfg.Mode = str "mask" ∧
    phoneExampleMatcher customPhoneRule (str "n 12345678") = [(2, 10)] ∧
    matchText (str "n 12345678") (2, 10) = str "12345678" ∧
    replace exampleLib planCustomPhone (str "phone") (str "12345678") =
      some (str "****5678") ∧
    replace exampleLib planCustomPhone (str "phone") (str "12345678") ≠
      some (str "<" ++ ToUpper exampleLib (str "phone") ++ str ">") ∧
    (RedactString exampleLib phoneExampleMatcher planCustomPhone (str "n 12345678")).map
        Prod.fst = some (str "n ****5678") := by
  decide

/-! ## C15 -/

/-- C15: for every mode other than `hash` and `tag`, and for every kind and
matched text, `replace` returns exactly what an engine in mode `mask`
returns. -/
theorem C15_mode_total (L : Lib) (r rmask : Redactor) (kind text : GoString)
    (h1 : r.cfg.Mode ≠ str "hash") (h2 : r.cfg.Mode ≠ str "tag")
    (hmask : rmask.cfg.Mode = str "mask") :
    replace L r kind text = replace L rmask kind text := by
  have hm1 : ¬ rmask.cfg.Mode = str "hash" := by rw [hmask]; exact mask_not_hash
  have hm2 : ¬ rmask.cfg.Mode = str "tag" := by rw [hmask]; exact mask_not_tag
  unfold replace
  rw [if_neg h1, if_neg h2, if_neg hm1, if_neg hm2]

/-- Witness of C15 at the unrecognised mode `redact` and the kind `email`. -/
theorem C15_mode_total_witness :
    planOtherMode.cfg.Mode ≠ str "hash" ∧ planOtherMode.cfg.Mode ≠ str "tag" ∧
    planBr.cfg.Mode = str "mask" ∧
    replace exampleLib planOtherMode (str "email") (str "ab@example.com") =
      replace exampleLib planBr (str "email") (str "ab@example.com") :=
  ⟨by decide, by decide, by decide,
    C15_mode_total exampleLib planOtherMode planBr (str "email") (str "ab@example.com")
      (by decide) (by decide) (by decide)⟩

/-! ## C20 -/

theorem luhn_fold_shift (l : List Nat) (sum : Nat) (alt : Bool) :
    l.foldl luhnStep (sum, alt) =
      ((l.foldl luhnStep (0, alt)).1 + sum, (l.foldl luhnStep (0, alt)).2) := by
  induction l generalizing sum alt with
  | nil => simp
  | cons b rest ih =>
    simp only [List.foldl_cons]
    have h1 : luhnStep (sum, alt) b = ((luhnStep (0, alt) b).1 + sum, !alt) := by
      simp only [luhnStep, Nat.zero_add, Nat.add_comm]
    have h2 : luhnStep (0, alt) b = ((luhnStep (0, alt) b).1, !alt) := by
      simp only [luhnStep]
    rw [h1, ih ((luhnStep (0, alt) b).1 + sum) (!alt)]
    conv_rhs => rw [h2, ih ((luhnStep (0, alt) b).1) (!alt)]
    simp only [Nat.add_assoc]

/-- What one decimal digit adds to the Luhn sum: at most 9, and different
digits add different amounts, whether doubled or not. -/
theorem luhnStep_digit (alt : Bool) (a c : Nat) (ha : 48 ≤ a ∧ a ≤ 57) (hc : 48 ≤ c ∧ c ≤ 57)
    (hne : c ≠ a) :
    (luhnStep (0, alt) a).1 ≤ 9 ∧ (luhnStep (0, alt) c).1 ≤ 9 ∧
      (luhnStep (0, alt) a).1 ≠ (luhnStep (0, alt) c).1 := by
  have e1 : (a + 256 - 48) % 256 = a - 48 := by omega
  have e2 : (c + 256 - 48) % 256 = c - 48 := by omega
  cases alt
  · simp only [luhnStep, e1, e2, Bool.false_eq_true, if_false, Nat.zero_add]
    omega
  · simp only [luhnStep, e1, e2, if_true, Nat.zero_add]
    split_ifs <;> omega

theorem luhn_single_digit (pre post : List Nat) (a c : Nat)
    (ha : 48 ≤ a ∧ a ≤ 57) (hc : 48 ≤ c ∧ c ≤ 57) (hne : c ≠ a)
    (hok : luhnOK (pre ++ a :: post) = true) : luhnOK (pre ++ c :: post) = false := by
  unfold luhnOK at hok ⊢
  simp only [List.reverse_append, List.reverse_cons, List.append_assoc, List.singleton_append,
    List.foldl_append, List.foldl_cons] at hok ⊢
  generalize post.reverse.foldl luhnStep (0, false) = st at hok ⊢
  obtain ⟨sum1, alt1⟩ := st
  have h1 : ∀ b, luhnStep (sum1, alt1) b = ((luhnStep (0, alt1) b).1 + sum1, !alt1) := by
    intro b
    simp only [luhnStep, Nat.zero_add, Nat.add_comm]
  rw [h1, luhn_fold_shift] at hok ⊢
  obtain ⟨h2, h3, h4⟩ := luhnStep_digit alt1 a c ha hc hne
  simp only [beq_iff_eq] at hok
  simp only [beq_eq_false_iff_ne, ne_eq]
  omega

/-- C20: `luhnOK` detects every single-digit error: if a string of decimal
digits passes `luhnOK`, replacing the digit at any one position by a different
decimal digit gives a string that fails it. -/
theorem C20_luhn_single_digit_error (s : GoString) (i c : Nat) (hs : isDigits s)
    (hi : i < s.length) (hc : 48 ≤ c ∧ c ≤ 57) (hne : c ≠ s[i])
    (hok : luhnOK s = true) : luhnOK (s.set i c) = false := by
  have hsplit : s = s.take i ++ s[i] :: s.drop (i + 1) := by
    rw [← List.drop_eq_getElem_cons hi, List.take_append_drop]
  rw [List.set_eq_take_cons_drop c hi]
  rw [hsplit] at hok
  exact luhn_single_digit _ _ _ _ (hs _ (List.getElem_mem _)) hc hne hok

/-- Witness of C20 at the pair 4539148803436467 and 4539148803436468. -/
theorem C20_luhn_single_digit_error_witness :
    luhnOK (str "4539148803436467") = true ∧
    (str "4539148803436467").set 15 56 = str "4539148803436468" ∧
    luhnOK ((str "4539148803436467").set 15 56) = false :=
  ⟨by decide, by decide,
    C20_luhn_single_digit_error (str "4539148803436467") 15 56
      (show ∀ b ∈ str "4539148803436467", 48 ≤ b ∧ b ≤ 57 by decide)
      (by decide) (by decide) (by decide) (by decide)⟩

/-! ## C19 -/

theorem keys_mapSet {β : Type} (m : List (GoString × β)) (k : GoString) (v : β) :
    (mapSet m k v).map Prod.fst =
      if k ∈ m.map Prod.fst then m.map Prod.fst else m.map Prod.fst ++ [k] := by
  induction m with
  | nil => simp [mapSet]
  | cons e rest ih =>
    obtain ⟨k1, v1⟩ := e
    by_cases h1 : k1 = k
    · subst h1
      simp [mapSet]
    · have h2 : ¬ k = k1 := fun h => h1 h.symm
      simp only [mapSet, h1, if_false, List.map_cons, ih, List.mem_cons, h2, false_or]
      split <;> simp

theorem keys_nodup_mapSet {β : Type} (m : List (GoString × β)) (k : GoString) (v : β)
    (h : (m.map Prod.fst).Nodup) : ((mapSet m k v).map Prod.fst).Nodup := by
  rw [keys_mapSet]
  split
  · exact h
  · rename_i hk
    rw [List.nodup_append]
    refine ⟨h, List.nodup_singleton _, ?_⟩
    intro a ha hb
    rw [List.mem_singleton] at hb
    exact hk (hb ▸ ha)

theorem keys_nodup_builtinPatterns (enabled : List GoString) :
    ((builtinPatterns enabled).map Prod.fst).Nodup := by
  unfold builtinPatterns
  have hgen : ∀ (l : List GoString) (acc : List (GoString × Regexp)),
      (acc.map Prod.fst).Nodup →
      ((l.foldl
        (fun patterns name =>
          match mapGet all name with
          | some re => mapSet patterns name re
          | none => patterns) acc).map Prod.fst).Nodup := by
    intro l
    induction l with
    | nil => intro acc h; exact h
    | cons n rest ih =>
      intro acc h
      simp only [List.foldl_cons]
      apply ih
      cases mapGet all n with
      | none => exact h
      | some re => exact keys_nodup_mapSet _ _ _ h
  exact hgen enabled [] List.nodup_nil

theorem keys_nodup_addCustom (L : Lib) (custom : List (GoString × GoString))
    (st st1 : List (GoString × Regexp) × List GoString)
    (h : addCustom L custom st = .ok st1) (hnd : (st.1.map Prod.fst).Nodup) :
    (st1.1.map Prod.fst).Nodup := by
  induction custom generalizing st with
  | nil =>
    simp only [addCustom, Except.ok.injEq] at h
    subst h
    exact hnd
  | cons raw rest ih =>
    obtain ⟨name, expr⟩ := raw
    by_cases hskip : TrimSpace name = [] ∨ TrimSpace expr = []
    · simp only [addCustom, hskip, if_true] at h
      exact ih st h hnd
    · simp only [addCustom, hskip, if_false] at h
      cases hc : L.compileErr (TrimSpace expr) with
      | some err => rw [hc] at h; cases h
      | none =>
        rw [hc] at h
        exact ih _ h (keys_nodup_mapSet _ _ _ hnd)

theorem keys_nodup_patterns (L : Lib) (cfg : Config) (r : Redactor)
    (h : NewRedactor L cfg = (some r, none)) : (r.patterns.map Prod.fst).Nodup := by
  unfold NewRedactor at h
  cases hc : addCustom L cfg.Custom (builtinPatterns (enabledKinds cfg), []) with
  | error msg => rw [hc] at h; cases h
  | ok st =>
    rw [hc] at h
    simp only [Prod.mk.injEq, Option.some.injEq, and_true] at h
    subst h
    exact keys_nodup_addCustom L _ _ _ hc (keys_nodup_builtinPatterns _)

theorem all_keys_in_baseOrder : ∀ e ∈ all, e.1 ∈ baseOrder := by decide

theorem isBuiltin_iff_mem_baseOrder (k : GoString) : isBuiltin k = true ↔ k ∈ baseOrder := by
  constructor
  · intro h
    unfold isBuiltin at h
    cases hg : mapGet all k with
    | none => rw [hg] at h; cases h
    | some re => exact all_keys_in_baseOrder _ (mapGet_mem _ _ _ hg)
  · exact baseOrder_known k

/-- The kinds that have a rule: the enabled registry names and the custom
names. -/
theorem patterns_isSome_iff (L : Lib) (cfg : Config) (r : Redactor)
    (h : NewRedactor L cfg = (some r, none)) (k : GoString) :
    (mapGet r.patterns k).isSome = true ↔
      (k ∈ enabledKinds cfg ∧ isBuiltin k = true) ∨ k ∈ customNames cfg := by
  obtain ⟨_, _, _, _, hb, hc⟩ := NewRedactor_ok L cfg r none h
  by_cases hk : k ∈ customNames cfg
  · obtain ⟨x, _, hx⟩ := hc k hk
    simp [hx, hk]
  · rw [hb k hk]
    by_cases he : k ∈ enabledKinds cfg
    · simp [he, hk, isBuiltin]
    · simp [he, hk]

theorem redactPass_no_rule (L : Lib) (M : Matcher) (r : Redactor) (k : GoString)
    (st : GoString × List (GoString × Nat)) (h : mapGet r.patterns k = none) :
    redactPass L M r k st = some st := by
  unfold redactPass
  rw [h]

/-- C19: whenever `NewRedactor` succeeds, the kinds of the planned order are
exactly the kinds bound to a rule in `patterns`, each key of `patterns` is
bound once, and these kinds are the enabled names that are registry entries
together with the custom names whose trimmed name and expression are
non-empty; a name of `Types` that is neither a registry entry nor a custom
name has no rule, is not planned, and its pass in `RedactString` would change
nothing. -/
theorem C19_plan_matches_patterns (L : Lib) (cfg : Config) (r : Redactor)
    (h : NewRedactor L cfg = (some r, none)) :
    (∀ k, k ∈ r.order ↔ (mapGet r.patterns k).isSome = true) ∧
    (r.patterns.map Prod.fst).Nodup ∧ r.order.Nodup ∧
    (∀ k, k ∈ r.order ↔ (k ∈ enabledKinds cfg ∧ isBuiltin k = true) ∨ k ∈ customNames cfg) ∧
    (∀ k, k ∈ customNames cfg ↔
      ∃ raw ∈ cfg.Custom, TrimSpace raw.1 = k ∧ TrimSpace raw.1 ≠ [] ∧ TrimSpace raw.2 ≠ []) ∧
    (∀ k, k ∈ enabledKinds cfg → isBuiltin k = false → k ∉ customNames cfg →
      mapGet r.patterns k = none ∧ k ∉ r.order ∧
      ∀ (M : Matcher) (st : GoString × List (GoString × Nat)),
        redactPass L M r k st = some st) := by
  have horder : ∀ k, k ∈ r.order ↔
      (k ∈ enabledKinds cfg ∧ isBuiltin k = true) ∨ k ∈ customNames cfg := by
    intro k
    rw [mem_order L cfg r none h k, isBuiltin_iff_mem_baseOrder]
    tauto
  obtain ⟨_, _, _, ho, _, _⟩ := NewRedactor_ok L cfg r none h
  refine ⟨?_, keys_nodup_patterns L cfg r h, ?_, horder, ?_, ?_⟩
  · intro k
    rw [horder, patterns_isSome_iff L cfg r h]
  · rw [ho]; exact nodup_keepFirst _ _
  · intro k
    unfold customNames
    rw [List.mem_map]
    constructor
    · rintro ⟨⟨n, x⟩, hmem, hn⟩
      simp only at hn
      subst hn
      obtain ⟨raw, hraw, h1, h2, h3, h4⟩ := (mem_effective _ _ _).1 hmem
      exact ⟨raw, hraw, h1, h1 ▸ h3, h2 ▸ h4⟩
    · rintro ⟨raw, hraw, h1, h2, h3⟩
      exact ⟨(k, TrimSpace raw.2),
        (mem_effective _ _ _).2 ⟨raw, hraw, h1, rfl, h1 ▸ h2, h3⟩, rfl⟩
  · intro k _ hb hc
    have hnone : mapGet r.patterns k = none := by
      have h1 := patterns_isSome_iff L cfg r h k
      cases hg : mapGet r.patterns k with
      | none => rfl
      | some re =>
        rw [hg] at h1
        rcases h1.1 rfl with ⟨_, h2⟩ | h2
        · rw [hb] at h2; cases h2
        · exact absurd h2 hc
    refine ⟨hnone, ?_, fun M st => redactPass_no_rule L M r k st hnone⟩
    rw [horder]
    rintro (⟨_, h2⟩ | h2)
    · rw [hb] at h2; cases h2
    · exact hc h2

/-- Witness of C19 at `Types = "email,bogus"`: `bogus` is enabled, has no rule
and is not planned. -/
theorem C19_plan_matches_patterns_witness :
    NewRedactor exampleLib cfgUnknownType = (some planUnknownType, none) ∧
    str "bogus" ∈ enabledKinds cfgUnknownType ∧
    planUnknownType.order = [str "email"] ∧
    (∀ k, k ∈ planUnknownType.order ↔ (mapGet planUnknownType.patterns k).isSome = true) ∧
    mapGet planUnknownType.patterns (str "bogus") = none :=
  ⟨by decide, by decide, by decide,
    (C19_plan_matches_patterns exampleLib cfgUnknownType planUnknownType (by decide)).1,
    ((C19_plan_matches_patterns exampleLib cfgUnknownType planUnknownType
      (by decide)).2.2.2.2.2 (str "bogus") (by decide) (by decide) (by decide)).1⟩

/-! ## The engine loop -/

/-- `replace` never panics: every slice it takes is in range. -/
theorem replace_isSome (L : Lib) (r : Redactor) (kind text : GoString) :
    ∃ out, replace L r kind text = some out := by
  unfold replace
  split
  · exact ⟨_, rfl⟩
  split
  · exact ⟨_, rfl⟩
  split
  · simp only
    split
    · exact ⟨_, rfl⟩
    · rename_i hat
      have hlt : text.indexOf 64 < text.length := by
        by_contra hne
        unfold Index at hat
        rw [if_neg hne] at hat
        omega
      have hidx : Index text 64 = (text.indexOf 64 : Int) := by
        unfold Index
        rw [if_pos hlt]
      rw [hidx] at hat ⊢
      have h1 : sliceTo text 1 = some (text.take 1) := by
        unfold sliceTo
        rw [if_pos (by constructor <;> omega)]
        rfl
      have h2 : Repeat 42 ((text.indexOf 64 : Int) - 1) =
          some (List.replicate (text.indexOf 64 - 1) 42) := by
        unfold Repeat
        rw [if_neg (by omega)]
        congr 2
        omega
      have h3 : sliceFrom text (text.indexOf 64 : Int) = some (text.drop (text.indexOf 64)) := by
        unfold sliceFrom
        rw [if_pos (by constructor <;> omega)]
        rfl
      rw [h1, h2, h3]
      exact ⟨_, rfl⟩
  split
  · simp only
    split
    · exact ⟨_, rfl⟩
    · rename_i hlen
      have h2 : Repeat 42 (((onlyDigits text).length : Int) - 4) =
          some (List.replicate ((onlyDigits text).length - 4) 42) := by
        unfold Repeat
        rw [if_neg (by omega)]
        congr 2
        omega
      have h3 : sliceFrom (onlyDigits text) (((onlyDigits text).length : Int) - 4) =
          some ((onlyDigits text).drop ((onlyDigits text).length - 4)) := by
        unfold sliceFrom
        rw [if_pos (by constructor <;> omega)]
        congr 2
        omega
      rw [h2, h3]
      exact ⟨_, rfl⟩
  split
  · exact ⟨_, rfl⟩
  · exact ⟨_, rfl⟩

theorem replace_eq_substitute (L : Lib) (r : Redactor) (kind text : GoString) :
    replace L r kind text = some (substitute L r kind text) := by
  obtain ⟨out, h⟩ := replace_isSome L r kind text
  unfold substitute
  rw [h]
  rfl

theorem ccCallback_eq (L : Lib) (r : Redactor) (name m : GoString)
    (counts : List (GoString × Nat)) :
    ccCallback L r name m counts =
      some (if ccAccept m then substitute L r name m else m,
        if ccAccept m then incCount counts name else counts) := by
  unfold ccCallback
  rw [replace_eq_substitute]
  cases ccAccept m <;> rfl

theorem defaultCallback_eq (L : Lib) (r : Redactor) (name m : GoString)
    (counts : List (GoString × Nat)) :
    defaultCallback L r name m counts = some (substitute L r name m, incCount counts name) := by
  unfold defaultCallback
  rw [replace_eq_substitute]
  rfl

/-- `ReplaceAllStringFunc` with a callback that returns `f m` and counts the
candidates that `acc` accepts. -/
theorem replaceAllFunc_eq (s : GoString) (name : GoString) (f : GoString → GoString)
    (acc : GoString → Bool)
    (repl : GoString → List (GoString × Nat) → Option (GoString × List (GoString × Nat)))
    (hrepl : ∀ m c, repl m c = some (f m, if acc m then incCount c name else c))
    (spans : List (Nat × Nat)) (pos : Nat) (counts : List (GoString × Nat)) :
    replaceAllFunc s repl spans pos counts =
      some (rewriteMatches s f spans pos,
        incCountN (spans.filter fun sp => acc (matchText s sp)).length counts name) := by
  induction spans generalizing pos counts with
  | nil => rfl
  | cons sp rest ih =>
    obtain ⟨a, b⟩ := sp
    simp only [replaceAllFunc, hrepl, Option.some_bind, ih, rewriteMatches]
    by_cases hacc : acc ((s.take b).drop a) = true
    · rw [List.filter_cons_of_pos (by simpa [matchText] using hacc)]
      simp only [hacc, if_true, List.length_cons, incCountN]
    · rw [List.filter_cons_of_neg (by simpa [matchText] using hacc)]
      simp only [hacc]
      rfl

/-- One pass of `RedactString`: the string it leaves and the counters. -/
theorem redactPass_eq (L : Lib) (M : Matcher) (r : Redactor) (name s : GoString)
    (counts : List (GoString × Nat)) :
    redactPass L M r name (s, counts) =
      some (passString L M r name s, incCountN (acceptedInPass M r name s) counts name) := by
  unfold redactPass passString acceptedInPass
  cases hre : mapGet r.patterns name with
  | none => rfl
  | some re =>
    simp only
    by_cases hcc : name = str "cc"
    · rw [if_pos hcc]
      rw [replaceAllFunc_eq s name (fun m => if accepts name m then substitute L r name m else m)
        (accepts name)]
      intro m c
      rw [ccCallback_eq]
      simp only [accepts, hcc, if_true]
    · rw [if_neg hcc]
      rw [replaceAllFunc_eq s name (fun m => if accepts name m then substitute L r name m else m)
        (accepts name)]
      intro m c
      rw [defaultCallback_eq]
      simp only [accepts, hcc, if_false, if_true]

theorem getCount_incCount (counts : List (GoString × Nat)) (name k : GoString) :
    getCount (incCount counts name) k = getCount counts k + if name = k then 1 else 0 := by
  unfold incCount
  simp only [getCount, mapGet_mapSet]
  by_cases h : name = k
  · subst h; simp [getCount]
  · simp [h]

theorem getCount_incCountN (n : Nat) (counts : List (GoString × Nat)) (name k : GoString) :
    getCount (incCountN n counts name) k = getCount counts k + if name = k then n else 0 := by
  induction n generalizing counts with
  | zero => simp [incCountN]
  | succ n ih =>
    simp only [incCountN, ih, getCount_incCount]
    by_cases h : name = k
    · simp only [h, if_true]; omega
    · simp [h]

theorem keys_nodup_incCountN (n : Nat) (counts : List (GoString × Nat)) (name : GoString)
    (h : (counts.map Prod.fst).Nodup) : ((incCountN n counts name).map Prod.fst).Nodup := by
  induction n generalizing counts with
  | zero => exact h
  | succ n ih => exact ih _ (keys_nodup_mapSet _ _ _ h)

/-- The loop of `RedactString`: it never panics, and it adds to the counter of
each kind the number of candidates of that kind it accepted. -/
theorem redactLoop_eq (L : Lib) (M : Matcher) (r : Redactor) (names : List GoString)
    (s : GoString) (counts : List (GoString × Nat)) :
    ∃ counts1, redactLoop L M r names (s, counts) =
        some (names.foldl (fun cur name => passString L M r name cur) s, counts1) ∧
      (∀ k, getCount counts1 k = getCount counts k + acceptedInCall L M r names s k) ∧
      ((counts.map Prod.fst).Nodup → (counts1.map Prod.fst).Nodup) := by
  induction names generalizing s counts with
  | nil => exact ⟨counts, rfl, fun k => by simp [acceptedInCall], fun h => h⟩
  | cons name rest ih =>
    obtain ⟨counts1, h1, h2, h3⟩ :=
      ih (passString L M r name s) (incCountN (acceptedInPass M r name s) counts name)
    refine ⟨counts1, ?_, ?_, ?_⟩
    · simp only [redactLoop, redactPass_eq, Option.some_bind, List.foldl_cons]
      exact h1
    · intro k
      rw [h2 k, getCount_incCountN]
      simp only [acceptedInCall]
      omega
    · intro h
      exact h3 (keys_nodup_incCountN _ _ _ h)

theorem mapSet_of_not_mem {β : Type} (m : List (GoString × β)) (k : GoString) (v : β)
    (h : k ∉ m.map Prod.fst) : mapSet m k v = m ++ [(k, v)] := by
  induction m with
  | nil => rfl
  | cons e rest ih =>
    obtain ⟨k1, v1⟩ := e
    simp only [List.map_cons, List.mem_cons, not_or] at h
    have h1 : ¬ k1 = k := fun hk => h.1 hk.symm
    simp only [mapSet, h1, if_false, ih h.2, List.cons_append]

theorem copy_fold (l acc : List (GoString × Nat)) (h : ((acc ++ l).map Prod.fst).Nodup) :
    l.foldl (fun out e => mapSet out e.1 e.2) acc = acc ++ l := by
  induction l generalizing acc with
  | nil => simp
  | cons e rest ih =>
    have hk : e.1 ∉ acc.map Prod.fst := by
      rw [List.map_append, List.nodup_append] at h
      intro hmem
      exact h.2.2 hmem (by simp)
    simp only [List.foldl_cons]
    rw [mapSet_of_not_mem _ _ _ hk, ih]
    · simp
    · simpa using h

/-- `Counts` returns the counters as they stand. -/
theorem Counts_eq (r : Redactor) (h : (r.counts.map Prod.fst).Nodup) : Counts r = r.counts := by
  unfold Counts
  rw [copy_fold _ _ (by simpa using h)]
  simp

/-- One call of `RedactString`: it returns, keeps the configuration, the rules
and the plan, and adds to the counter of each kind the number of candidates
of that kind it accepted. -/
theorem RedactString_eq (L : Lib) (M : Matcher) (r : Redactor) (s : GoString) :
    ∃ r1, RedactString L M r s =
        some (r.order.foldl (fun cur name => passString L M r name cur) s, r1) ∧
      r1.cfg = r.cfg ∧ r1.patterns = r.patterns ∧ r1.order = r.order ∧
      (∀ k, getCount r1.counts k = getCount r.counts k + acceptedInCall L M r r.order s k) ∧
      ((r.counts.map Prod.fst).Nodup → (r1.counts.map Prod.fst).Nodup) := by
  obtain ⟨counts1, h1, h2, h3⟩ := redactLoop_eq L M r r.order s r.counts
  refine ⟨{ r with counts := counts1 }, ?_, rfl, rfl, rfl, h2, h3⟩
  unfold RedactString
  rw [h1]
  rfl

theorem acceptedInPass_congr (M : Matcher) (r r1 : Redactor) (h : r1.patterns = r.patterns)
    (name s : GoString) : acceptedInPass M r1 name s = acceptedInPass M r name s := by
  unfold acceptedInPass
  rw [h]

/-! ## C16 -/

/-- C16: a call of `RedactString` returns and increases the counter of each
kind by exactly the number of candidates of that kind it accepted and
replaced in that call; no counter is reset or decreased, and the counter of a
kind without an accepted candidate is unchanged; `Counts` returns the
accumulated counters; so after two calls on a fresh engine that each accept
one candidate of a kind, `Counts` gives 2 for this kind. -/
theorem C16_counts_cumulative (L : Lib) (M : Matcher) (r : Redactor) (s : GoString)
    (hwf : (r.counts.map Prod.fst).Nodup) :
    ∃ out r1, RedactString L M r s = some (out, r1) ∧
      (∀ k, getCount r1.counts k = getCount r.counts k + acceptedInCall L M r r.order s k) ∧
      (∀ k, getCount r.counts k ≤ getCount r1.counts k) ∧
      (∀ k, acceptedInCall L M r r.order s k = 0 → getCount r1.counts k = getCount r.counts k) ∧
      Counts r1 = r1.counts ∧
      (∀ s2 k, r.counts = [] → acceptedInCall L M r r.order s k = 1 →
        acceptedInCall L M r1 r1.order s2 k = 1 →
        ∃ out2 r2, RedactString L M r1 s2 = some (out2, r2) ∧ getCount (Counts r2) k = 2) := by
  obtain ⟨r1, h1, _, _, _, hc, hnd⟩ := RedactString_eq L M r s
  refine ⟨_, r1, h1, hc, ?_, ?_, Counts_eq r1 (hnd hwf), ?_⟩
  · intro k
    rw [hc k]
    omega
  · intro k hk
    rw [hc k, hk]
    rfl
  · intro s2 k hfresh hk1 hk2
    obtain ⟨r2, h2, _, _, _, hc2, hnd2⟩ := RedactString_eq L M r1 s2
    refine ⟨_, r2, h2, ?_⟩
    rw [Counts_eq r2 (hnd2 (hnd hwf)), hc2 k, hc k, hk1, hk2, hfresh]
    rfl

/-- Witness of C16: two calls on `ab@example.com` of the fresh engine `planBr`,
each with one accepted `email` candidate. -/
theorem C16_counts_cumulative_witness :
    (planBr.counts.map Prod.fst).Nodup ∧
    (RedactString exampleLib exampleMatcher planBr (str "ab@example.com")).map
        (fun res => (res.1, Counts res.2)) =
      some (str "a*@example.com", [(str "email", 1)]) ∧
    ((RedactString exampleLib exampleMatcher planBr (str "ab@example.com")).bind fun res =>
        (RedactString exampleLib exampleMatcher res.2 (str "ab@example.com")).map
          fun res2 => (res2.1, getCount (Counts res2.2) (str "email"))) =
      some (str "a*@example.com", 2) ∧
    ∃ out r1, RedactString exampleLib exampleMatcher planBr (str "ab@example.com") =
        some (out, r1) ∧
      ∀ k, getCount r1.counts k =
        getCount planBr.counts k +
          acceptedInCall exampleLib exampleMatcher planBr planBr.order (str "ab@example.com") k := by
  refine ⟨by decide, by decide, by decide, ?_⟩
  obtain ⟨out, r1, h1, h2, _⟩ :=
    C16_counts_cumulative exampleLib exampleMatcher planBr (str "ab@example.com") (by decide)
  exact ⟨out, r1, h1, h2⟩

/-! ## C17 -/

theorem rewriteMatches_unchanged (s : GoString) (f : GoString → GoString)
    (spans : List (Nat × Nat)) (pos : Nat) (hord : spansOrdered s spans pos)
    (hf : ∀ sp ∈ spans, f (matchText s sp) = matchText s sp) :
    rewriteMatches s f spans pos = s.drop pos := by
  induction spans generalizing pos with
  | nil => rfl
  | cons sp rest ih =>
    obtain ⟨a, b⟩ := sp
    obtain ⟨h1, h2, h3, h4⟩ := hord
    have hfa := hf (a, b) (List.mem_cons_self _ _)
    simp only [matchText] at hfa
    simp only [rewriteMatches, hfa]
    rw [ih b h4 (fun sp hsp => hf sp (List.mem_cons_of_mem _ hsp))]
    have e1 : (s.take b).drop a ++ s.drop b = s.drop a := by
      rw [List.drop_take]
      have : s.drop b = (s.drop a).drop (b - a) := by
        rw [List.drop_drop]; congr 1; omega
      rw [this, List.take_append_drop]
    have e2 : (s.take a).drop pos ++ s.drop a = s.drop pos := by
      rw [List.drop_take]
      have : s.drop a = (s.drop pos).drop (a - pos) := by
        rw [List.drop_drop]; congr 1; omega
      rw [this, List.take_append_drop]
    rw [List.append_assoc, e1, e2]

/-- C17: in the pass of a kind `name` that has the rule `re`: for `cc`, a
candidate that the validator rejects is returned as it is and no counter
changes, the pass replaces the accepted candidates only and counts each of
them once, and a pass that rejects all its candidates returns the string and
the counters unchanged; for every other kind each match is replaced and
counted once. -/
theorem C17_validator_only_for_cc (L : Lib) (M : Matcher) (r : Redactor) (name s : GoString)
    (counts : List (GoString × Nat)) (re : Regexp) (hre : mapGet r.patterns name = some re) :
    (∀ m c, ccAccept m = false → ccCallback L r name m c = some (m, c)) ∧
    (name = str "cc" →
      redactPass L M r name (s, counts) =
        some (rewriteMatches s (fun m => if ccAccept m then substitute L r name m else m)
            (M re s) 0,
          incCountN ((M re s).filter fun sp => ccAccept (matchText s sp)).length counts name) ∧
      ((∀ sp ∈ M re s, ccAccept (matchText s sp) = false) → spansOrdered s (M re s) 0 →
        redactPass L M r name (s, counts) = some (s, counts))) ∧
    (name ≠ str "cc" →
      redactPass L M r name (s, counts) =
        some (rewriteMatches s (substitute L r name) (M re s) 0,
          incCountN (M re s).length counts name)) ∧
    (∀ m, replace L r name m = some (substitute L r name m)) ∧
    (∀ n k, getCount (incCountN n counts name) k =
      getCount counts k + if name = k then n else 0) := by
  have hpass := redactPass_eq L M r name s counts
  unfold passString acceptedInPass at hpass
  rw [hre] at hpass
  simp only at hpass
  refine ⟨?_, ?_, ?_, fun m => replace_eq_substitute L r name m,
    fun n k => getCount_incCountN n counts name k⟩
  · intro m c hrej
    rw [ccCallback_eq, hrej]
    rfl
  · intro hcc
    have hacc : accepts name = ccAccept := by
      funext m
      simp [accepts, hcc]
    rw [hacc] at hpass
    refine ⟨hpass, ?_⟩
    intro hrej hord
    rw [hpass]
    have hnone : (M re s).filter (fun sp => ccAccept (matchText s sp)) = [] := by
      rw [List.filter_eq_nil_iff]
      intro sp hsp
      rw [hrej sp hsp]
      simp
    rw [hnone, rewriteMatches_unchanged s _ _ 0 hord]
    · rfl
    · intro sp hsp
      simp only [hrej sp hsp]
      rfl
  · intro hcc
    have hacc : accepts name = fun _ => true := by
      funext m
      simp [accepts, hcc]
    rw [hacc] at hpass
    simp only [if_true, List.filter_true] at hpass
    exact hpass

/-- Witness of C17 at the `cc` pass of `planBr` over a string with one
candidate whose checksum fails: the pass returns the string and the counters
unchanged. -/
theorem C17_validator_only_for_cc_witness :
    mapGet planBr.patterns (str "cc") = some ccRule ∧
    ccExampleMatcher ccRule (str "pay 4539148803436468 now") = [(4, 20)] ∧
    matchText (str "pay 4539148803436468 now") (4, 20) = str "4539148803436468" ∧
    ccAccept (str "4539148803436468") = false ∧
    redactPass exampleLib ccExampleMatcher planBr (str "cc")
        (str "pay 4539148803436468 now", []) =
      some (str "pay 4539148803436468 now", []) :=
  ⟨by decide, by decide, by decide, by decide,
    ((C17_validator_only_for_cc exampleLib ccExampleMatcher planBr (str "cc")
      (str "pay 4539148803436468 now") [] ccRule (by decide)).2.1 rfl).2
      (by decide)
      (show spansOrdered (str "pay 4539148803436468 now")
          (ccExampleMatcher ccRule (str "pay 4539148803436468 now")) 0 from
        ⟨by decide, by decide, by decide, trivial⟩)⟩

/-! ## C18 -/

theorem redactLoop_no_match (L : Lib) (M : Matcher) (r : Redactor) (names : List GoString)
    (s : GoString) (counts : List (GoString × Nat))
    (h : ∀ name re, name ∈ names → mapGet r.patterns name = some re → M re s = []) :
    redactLoop L M r names (s, counts) = some (s, counts) := by
  induction names with
  | nil => rfl
  | cons name rest ih =>
    have hpass : redactPass L M r name (s, counts) = some (s, counts) := by
      rw [redactPass_eq]
      unfold passString acceptedInPass
      cases hre : mapGet r.patterns name with
      | none => rfl
      | some re =>
        simp only [h name re (List.mem_cons_self _ _) hre]
        rfl
    simp only [redactLoop, hpass, Option.some_bind]
    exact ih (fun n re hn => h n re (List.mem_cons_of_mem _ hn))

/-- C18: `replace` returns a string for every mode, kind and matched text; the
slices of the email rule are in range whenever the first "@" is at index 2 or
more, and the slice of the card rule whenever there are 4 digits or more;
`RedactString` returns a string for every engine and every input; and when no
rule of the plan matches, the output is the input and the engine is
unchanged. -/
theorem C18_never_fails :
    (∀ (L : Lib) (r : Redactor) (kind text : GoString), ∃ out, replace L r kind text = some out) ∧
    (∀ text : GoString, 2 ≤ Index text 64 →
      (sliceTo text 1).isSome = true ∧ (Repeat 42 (Index text 64 - 1)).isSome = true ∧
        (sliceFrom text (Index text 64)).isSome = true) ∧
    (∀ d : GoString, 4 ≤ d.length →
      (Repeat 42 ((d.length : Int) - 4)).isSome = true ∧
        (sliceFrom d ((d.length : Int) - 4)).isSome = true) ∧
    (∀ (L : Lib) (M : Matcher) (r : Redactor) (s : GoString),
      ∃ out r1, RedactString L M r s = some (out, r1)) ∧
    (∀ (L : Lib) (M : Matcher) (r : Redactor) (s : GoString),
      (∀ name re, name ∈ r.order → mapGet r.patterns name = some re → M re s = []) →
      RedactString L M r s = some (s, r)) := by
  refine ⟨replace_isSome, ?_, ?_, ?_, ?_⟩
  · intro text hat
    have hlt : text.indexOf 64 < text.length := by
      by_contra hne
      unfold Index at hat
      rw [if_neg hne] at hat
      omega
    have hidx : Index text 64 = (text.indexOf 64 : Int) := by
      unfold Index
      rw [if_pos hlt]
    rw [hidx] at hat ⊢
    refine ⟨?_, ?_, ?_⟩
    · unfold sliceTo
      rw [if_pos (by constructor <;> omega)]
      rfl
    · unfold Repeat
      rw [if_neg (by omega)]
      rfl
    · unfold sliceFrom
      rw [if_pos (by constructor <;> omega)]
      rfl
  · intro d hd
    constructor
    · unfold Repeat
      rw [if_neg (by omega)]
      rfl
    · unfold sliceFrom
      rw [if_pos (by constructor <;> omega)]
      rfl
  · intro L M r s
    obtain ⟨r1, h1, _⟩ := RedactString_eq L M r s
    exact ⟨_, r1, h1⟩
  · intro L M r s h
    unfold RedactString
    rw [redactLoop_no_match L M r r.order s r.counts h]
    rfl

/-! ## Runes -/

theorem runesN_fuel (fuel fuel1 : Nat) (s : GoString) (h : s.length ≤ fuel)
    (h1 : s.length ≤ fuel1) : runesN fuel s = runesN fuel1 s := by
  induction fuel generalizing s fuel1 with
  | zero =>
    have hs : s = [] := List.eq_nil_of_length_eq_zero (by omega)
    subst hs
    cases fuel1 <;> rfl
  | succ n ih =>
    cases s with
    | nil => cases fuel1 <;> rfl
    | cons b rest =>
      cases fuel1 with
      | zero => simp at h1
      | succ m =>
        simp only [runesN]
        congr 1
        apply ih
        · simp only [List.length_drop, List.length_cons] at h ⊢; omega
        · simp only [List.length_drop, List.length_cons] at h1 ⊢; omega

theorem runes_cons (b : Nat) (rest : GoString) :
    runes (b :: rest) =
      (decodeRune (b :: rest)).1 :: runes (rest.drop ((decodeRune (b :: rest)).2 - 1)) := by
  unfold runes
  simp only [List.length_cons, runesN]
  congr 1
  apply runesN_fuel
  · simp only [List.length_drop]; omega
  · exact Nat.le_refl _

theorem validRune_runeError : validRune runeError := by
  unfold validRune runeError
  right
  omega

theorem decodeRune_valid (b : Nat) (rest : GoString) : validRune (decodeRune (b :: rest)).1 := by
  by_cases h1 : b < 0x80
  · simp only [decodeRune, h1, if_true]
    unfold validRune
    left
    omega
  by_cases h2 : 0xC2 ≤ b ∧ b ≤ 0xDF
  · cases rest with
    | nil =>
      simp only [decodeRune, h1, h2, if_true, if_false, and_self]
      exact validRune_runeError
    | cons b1 tail =>
      by_cases h3 : isCont b1 = true
      · simp only [decodeRune, h1, h2, h3, if_true, if_false, and_self]
        simp only [isCont, Bool.and_eq_true, decide_eq_true_eq] at h3
        unfold validRune
        left
        omega
      · simp only [decodeRune, h1, h2, h3, if_true, if_false, and_self]
        exact validRune_runeError
  by_cases h4 : 0xE0 ≤ b ∧ b ≤ 0xEF
  · match rest with
    | [] =>
      simp only [decodeRune, h1, h2, h4, if_true, if_false, and_self]
      exact validRune_runeError
    | [_] =>
      simp only [decodeRune, h1, h2, h4, if_true, if_false, and_self]
      exact validRune_runeError
    | b1 :: b2 :: tail =>
      simp only [decodeRune, h1, h2, h4, if_true, if_false, and_self]
      split_ifs <;>
        first
        | exact validRune_runeError
        | (unfold validRune
           simp only [isCont, Bool.and_eq_true, decide_eq_true_eq] at *
           omega)
  by_cases h9 : 0xF0 ≤ b ∧ b ≤ 0xF4
  · match rest with
    | [] =>
      simp only [decodeRune, h1, h2, h4, h9, if_true, if_false, and_self]
      exact validRune_runeError
    | [_] =>
      simp only [decodeRune, h1, h2, h4, h9, if_true, if_false, and_self]
      exact validRune_runeError
    | [_, _] =>
      simp only [decodeRune, h1, h2, h4, h9, if_true, if_false, and_self]
      exact validRune_runeError
    | b1 :: b2 :: b3 :: tail =>
      simp only [decodeRune, h1, h2, h4, h9, if_true, if_false, and_self]
      split_ifs <;>
        first
        | exact validRune_runeError
        | (unfold validRune
           simp only [isCont, Bool.and_eq_true, decide_eq_true_eq] at *
           omega)
  · simp only [decodeRune, h1, h2, h4, h9, if_false]
    exact validRune_runeError

theorem decodeRune_encodeRune (r : Nat) (rest : GoString) (hr : validRune r) :
    decodeRune (encodeRune r ++ rest) = (r, (encodeRune r).length) := by
  unfold validRune at hr
  by_cases h1 : r < 0x80
  · simp only [encodeRune, h1, if_true, List.singleton_append, decodeRune, List.length_cons,
      List.length_nil]
  by_cases h2 : r < 0x800
  · simp only [encodeRune, h1, h2, if_true, if_false, List.cons_append, List.nil_append,
      decodeRune, List.length_cons, List.length_nil]
    split_ifs <;>
      simp only [isCont, Bool.and_eq_true, decide_eq_true_eq, Prod.mk.injEq] at * <;>
      first
      | (exfalso; omega)
      | exact ⟨by omega, trivial⟩
  have h3 : ¬ ((0xD800 ≤ r ∧ r ≤ 0xDFFF) ∨ 0x10FFFF < r) := by omega
  by_cases h4 : r < 0x10000
  · simp only [encodeRune, h1, h2, h3, h4, if_true, if_false, List.cons_append, List.nil_append,
      decodeRune, List.length_cons, List.length_nil]
    split_ifs <;>
      simp only [isCont, Bool.and_eq_true, decide_eq_true_eq, Prod.mk.injEq] at * <;>
      first
      | (exfalso; omega)
      | exact ⟨by omega, trivial⟩
  · simp only [encodeRune, h1, h2, h3, h4, if_true, if_false, List.cons_append, List.nil_append,
      decodeRune, List.length_cons, List.length_nil]
    split_ifs <;>
      simp only [isCont, Bool.and_eq_true, decide_eq_true_eq, Prod.mk.injEq] at * <;>
      first
      | (exfalso; omega)
      | exact ⟨by omega, trivial⟩

theorem encodeRune_length_pos (r : Nat) : 1 ≤ (encodeRune r).length := by
  unfold encodeRune
  split_ifs <;> simp

theorem runes_encodeRune_append (r : Nat) (rest : GoString) (hr : validRune r) :
    runes (encodeRune r ++ rest) = r :: runes rest := by
  have hpos := encodeRune_length_pos r
  cases henc : encodeRune r with
  | nil => rw [henc] at hpos; simp at hpos
  | cons b tail =>
    have hdec := decodeRune_encodeRune r rest hr
    rw [henc] at hdec
    rw [List.cons_append] at hdec ⊢
    rw [runes_cons, hdec]
    simp only [List.length_cons, Nat.add_sub_cancel, List.drop_left]

/-- Decoding the encoding of valid runes gives the runes back. -/
theorem runes_ofRunes (rs : List Nat) (h : ∀ r ∈ rs, validRune r) : runes (ofRunes rs) = rs := by
  induction rs with
  | nil => rfl
  | cons r rest ih =>
    have h1 : ofRunes (r :: rest) = encodeRune r ++ ofRunes rest := by
      simp [ofRunes]
    rw [h1, runes_encodeRune_append r _ (h r (List.mem_cons_self _ _)),
      ih (fun x hx => h x (List.mem_cons_of_mem _ hx))]

/-- Every rune that decoding produces is valid. -/
theorem runes_valid (s : GoString) : ∀ r ∈ runes s, validRune r := by
  have hgen : ∀ (n : Nat) (s : GoString), s.length ≤ n → ∀ r ∈ runes s, validRune r := by
    intro n
    induction n with
    | zero =>
      intro s hs r hr
      have : s = [] := List.eq_nil_of_length_eq_zero (by omega)
      subst this
      simp [runes, runesN] at hr
    | succ n ih =>
      intro s hs r hr
      cases s with
      | nil => simp [runes, runesN] at hr
      | cons b rest =>
        rw [runes_cons] at hr
        rcases List.mem_cons.1 hr with h | h
        · rw [h]; exact decodeRune_valid b rest
        · refine ih _ ?_ r h
          simp only [List.length_drop, List.length_cons] at hs ⊢
          omega
  exact hgen s.length s (Nat.le_refl _)

/-! ## C11 -/

theorem digitCount_cons (x : Nat) (rest : List Nat) :
    digitCount (x :: rest) = (if isDigitRune x = true then 1 else 0) + digitCount rest := by
  unfold digitCount
  by_cases h : isDigitRune x = true
  · rw [List.filter_cons_of_pos h]; simp [h]; omega
  · rw [List.filter_cons_of_neg h]; simp [h]

/-- The loop of `maskKeepLastDigits` computes the masking of the
specification. -/
theorem mask_loop (keep ch : Nat) (rs : List Nat) :
    rs.reverse.foldl (maskStep keep ch) (0, []) =
      (min keep (digitCount rs), maskSpec keep ch rs) := by
  rw [List.foldl_reverse]
  induction rs with
  | nil => simp [digitCount, maskSpec]
  | cons x rest ih =>
    rw [List.foldr_cons, ih, digitCount_cons]
    by_cases hd : 48 ≤ x ∧ x ≤ 57
    · have hd1 : isDigitRune x = true := by simp [isDigitRune, hd]
      by_cases hk : keep ≤ digitCount rest
      · have h1 : ¬ min keep (digitCount rest) < keep := by omega
        simp only [maskStep, hd, and_self, if_true, h1, if_false, maskSpec, hd1, hk,
          Prod.mk.injEq, and_true]
        omega
      · have h1 : min keep (digitCount rest) < keep := by omega
        simp only [maskStep, hd, and_self, if_true, h1, maskSpec, hd1, hk, and_false,
          if_false, Prod.mk.injEq, and_true]
        omega
    · have hd1 : ¬ isDigitRune x = true := by simp [isDigitRune, hd]
      simp only [maskStep, hd, if_false, maskSpec, hd1, false_and, Prod.mk.injEq, and_true]
      simp

theorem maskKeepLastDigits_eq (s : GoString) (keep ch : Nat) :
    maskKeepLastDigits s keep ch = ofRunes (maskSpec keep ch (runes s)) := by
  unfold maskKeepLastDigits
  rw [mask_loop]

theorem maskSpec_length (keep ch : Nat) (rs : List Nat) :
    (maskSpec keep ch rs).length = rs.length := by
  induction rs with
  | nil => rfl
  | cons x rest ih => simp [maskSpec, ih]

theorem maskSpec_getElem? (keep ch : Nat) (rs : List Nat) (i x : Nat) (h : rs[i]? = some x) :
    (maskSpec keep ch rs)[i]? =
      some (if isDigitRune x = true ∧ keep ≤ digitCount (rs.drop (i + 1)) then ch else x) := by
  induction rs generalizing i with
  | nil => simp at h
  | cons y rest ih =>
    cases i with
    | zero =>
      simp only [List.getElem?_cons_zero, Option.some.injEq] at h
      subst h
      simp [maskSpec]
    | succ j =>
      simp only [List.getElem?_cons_succ] at h
      simp only [maskSpec, List.getElem?_cons_succ, List.drop_succ_cons]
      exact ih j h

theorem maskSpec_valid (keep ch : Nat) (rs : List Nat) (hch : validRune ch)
    (h : ∀ r ∈ rs, validRune r) : ∀ r ∈ maskSpec keep ch rs, validRune r := by
  induction rs with
  | nil => intro r hr; simp [maskSpec] at hr
  | cons x rest ih =>
    intro r hr
    simp only [maskSpec, List.mem_cons] at hr
    rcases hr with hr | hr
    · rw [hr]
      split
      · exact hch
      · exact h x (List.mem_cons_self _ _)
    · exact ih (fun y hy => h y (List.mem_cons_of_mem _ hy)) r hr

theorem maskSpec_few_digits (keep ch : Nat) (rs : List Nat) (h : digitCount rs ≤ keep) :
    maskSpec keep ch rs = rs := by
  induction rs with
  | nil => rfl
  | cons x rest ih =>
    rw [digitCount_cons] at h
    have h1 : digitCount rest ≤ keep := by omega
    have h2 : ¬ (isDigitRune x = true ∧ keep ≤ digitCount rest) := by
      rintro ⟨hx, hk⟩
      rw [if_pos hx] at h
      omega
    simp only [maskSpec, h2, if_false, ih h1]

theorem validRune_star : validRune 42 := by
  unfold validRune
  left
  omega

/-- C11, as stated, fails: the text made of the single byte 0xFF, which is not
valid UTF-8 and has no digit, is not returned unchanged; it comes back as the
three bytes of U+FFFD. -/
theorem C11_counterexample :
    planBr.cfg.Mode = str "mask" ∧
    digitCount (runes [0xFF]) ≤ 4 ∧
    replace exampleLib planBr (str "phone") [0xFF] = some [0xEF, 0xBF, 0xBD] ∧
    replace exampleLib planBr (str "phone") [0xFF] ≠ some [0xFF] := by
  decide

/-- C11, amended: in mask mode with kind phone, for every matched text,
`replace` returns a string with as many runes as the input (an invalid byte
counts as the rune U+FFFD) in which, position by position, a digit that has at
least 4 digits after it is replaced by `*`, and the last 4 digits and every
rune that is not a digit are unchanged; a text with at most 4 digits keeps all
its runes, and is returned unchanged when it is valid UTF-8. -/
theorem C11_mask_phone (L : Lib) (r : Redactor) (text : GoString)
    (hmode : r.cfg.Mode = str "mask") :
    ∃ out, replace L r (str "phone") text = some out ∧
      out = maskKeepLastDigits text 4 42 ∧
      (runes out).length = (runes text).length ∧
      (∀ i x, (runes text)[i]? = some x →
        (runes out)[i]? =
          some (if isDigitRune x = true ∧ 4 ≤ digitCount ((runes text).drop (i + 1)) then 42
            else x)) ∧
      (digitCount (runes text) ≤ 4 → runes out = runes text) ∧
      (digitCount (runes text) ≤ 4 → validUTF8 text → out = text) := by
  have hm1 : ¬ r.cfg.Mode = str "hash" := by rw [hmode]; exact mask_not_hash
  have hm2 : ¬ r.cfg.Mode = str "tag" := by rw [hmode]; exact mask_not_tag
  have h1 : ¬ str "phone" = str "email" := by decide
  have h2 : ¬ str "phone" = str "cc" := by decide
  have hrunes : runes (maskKeepLastDigits text 4 42) = maskSpec 4 42 (runes text) := by
    rw [maskKeepLastDigits_eq]
    exact runes_ofRunes _ (maskSpec_valid 4 42 _ validRune_star (runes_valid text))
  refine ⟨maskKeepLastDigits text 4 42, ?_, rfl, ?_, ?_, ?_, ?_⟩
  · unfold replace
    rw [if_neg hm1, if_neg hm2, if_neg h1, if_neg h2, if_pos rfl]
  · rw [hrunes, maskSpec_length]
  · intro i x hx
    rw [hrunes]
    exact maskSpec_getElem? 4 42 (runes text) i x hx
  · intro hfew
    rw [hrunes, maskSpec_few_digits 4 42 _ hfew]
  · intro hfew hvalid
    rw [maskKeepLastDigits_eq, maskSpec_few_digits 4 42 _ hfew]
    exact hvalid

/-- Witness of C11 (amended) at a phone number with 13 digits and at a text
with 4 digits. -/
theorem C11_mask_phone_witness :
    planBr.cfg.Mode = str "mask" ∧
    replace exampleLib planBr (str "phone") (str "+55 (11) 91234-5678") =
      some (str "+** (**) *****-5678") ∧
    replace exampleLib planBr (str "phone") (str "12-34") = some (str "12-34") ∧
    ∃ out, replace exampleLib planBr (str "phone") (str "+55 (11) 91234-5678") = some out ∧
      (runes out).length = (runes (str "+55 (11) 91234-5678")).length := by
  refine ⟨by decide, by decide, by decide, ?_⟩
  obtain ⟨out, h1, _, h2, _⟩ :=
    C11_mask_phone exampleLib planBr (str "+55 (11) 91234-5678") (by decide)
  exact ⟨out, h1, h2⟩

/-! ## C9 -/

theorem runes_ascii_cons (b : Nat) (rest : GoString) (hb : b < 128) :
    runes (b :: rest) = b :: runes rest := by
  rw [runes_cons]
  simp [decodeRune, hb]

theorem runes_ascii_append (p s : GoString) (hp : ∀ b ∈ p, b < 128) :
    runes (p ++ s) = p ++ runes s := by
  induction p with
  | nil => rfl
  | cons b rest ih =>
    rw [List.cons_append, runes_ascii_cons b _ (hp b (List.mem_cons_self _ _)),
      ih (fun x hx => hp x (List.mem_cons_of_mem _ hx)), List.cons_append]

/-- C9, as stated, fails: the text `éb@x.com` has 8 characters, its first is
`é` (two bytes) and its first "@" is at byte index 3; `replace` returns the
first byte of `é`, two asterisks and `@x.com`, which is not the first
character followed by asterisks and the rest, and has 9 characters, the first
of them U+FFFD. In the same way `aſ@example.com` (14 characters) becomes
`a**@example.com` (15 characters). -/
theorem C9_counterexample :
    planBr.cfg.Mode = str "mask" ∧
    Index [0xC3, 0xA9, 98, 64, 120, 46, 99, 111, 109] 64 = 3 ∧
    runes [0xC3, 0xA9, 98, 64, 120, 46, 99, 111, 109] = [0xE9, 98, 64, 120, 46, 99, 111, 109] ∧
    replace exampleLib planBr (str "email") [0xC3, 0xA9, 98, 64, 120, 46, 99, 111, 109] =
      some [0xC3, 42, 42, 64, 120, 46, 99, 111, 109] ∧
    replace exampleLib planBr (str "email") [0xC3, 0xA9, 98, 64, 120, 46, 99, 111, 109] ≠
      some (encodeRune 0xE9 ++ List.replicate (3 - 1) 42 ++ [64, 120, 46, 99, 111, 109]) ∧
    runes [0xC3, 42, 42, 64, 120, 46, 99, 111, 109] =
      [0xFFFD, 42, 42, 64, 120, 46, 99, 111, 109] ∧
    (runes [0xC3, 42, 42, 64, 120, 46, 99, 111, 109]).length ≠
      (runes [0xC3, 0xA9, 98, 64, 120, 46, 99, 111, 109]).length ∧
    replace exampleLib planBr (str "email") ([97, 0xC5, 0xBF] ++ str "@example.com") =
      some (str "a**@example.com") ∧
    (runes ([97, 0xC5, 0xBF] ++ str "@example.com")).length = 14 ∧
    (runes (str "a**@example.com")).length = 15 := by
  decide

/-- C9, amended: in mask mode with kind email, a text whose first "@" is at
byte index `atPos >= 2` is replaced by its first byte, `atPos - 1` asterisks
and the text from the "@" on, a string of the same byte length; when the bytes
before the "@" are ASCII, the first byte is the first character and the
result has as many characters as the text; a text whose first "@" is at index
0 or 1, or that has no "@", is replaced by the tag `<EMAIL>`. -/
theorem C9_mask_email (L : Lib) (r : Redactor) (text : GoString)
    (hmode : r.cfg.Mode = str "mask") :
    (∀ atPos : Nat, 2 ≤ atPos → Index text 64 = (atPos : Int) →
      replace L r (str "email") text =
        some (text.take 1 ++ List.replicate (atPos - 1) 42 ++ text.drop atPos) ∧
      (text.take 1 ++ List.replicate (atPos - 1) 42 ++ text.drop atPos).length = text.length ∧
      (text.take 1).length = 1 ∧
      text.drop atPos = 64 :: text.drop (atPos + 1) ∧
      ((∀ b ∈ text.take atPos, b < 128) →
        runes text = text.take atPos ++ runes (text.drop atPos) ∧
        runes (text.take 1 ++ List.replicate (atPos - 1) 42 ++ text.drop atPos) =
          text.take 1 ++ List.replicate (atPos - 1) 42 ++ runes (text.drop atPos) ∧
        (runes (text.take 1 ++ List.replicate (atPos - 1) 42 ++ text.drop atPos)).length =
          (runes text).length ∧
        (runes (text.take 1 ++ List.replicate (atPos - 1) 42 ++ text.drop atPos)).head? =
          (runes text).head?)) ∧
    (Index text 64 ≤ 1 → replace L r (str "email") text = some (str "<EMAIL>")) := by
  have hm1 : ¬ r.cfg.Mode = str "hash" := by rw [hmode]; exact mask_not_hash
  have hm2 : ¬ r.cfg.Mode = str "tag" := by rw [hmode]; exact mask_not_tag
  constructor
  · intro atPos hat hidx
    have hlt : text.indexOf 64 < text.length := by
      unfold Index at hidx
      by_contra hne
      rw [if_neg hne] at hidx
      omega
    have hidx2 : text.indexOf 64 = atPos := by
      unfold Index at hidx
      rw [if_pos hlt] at hidx
      exact_mod_cast hidx
    have hlen : atPos < text.length := hidx2 ▸ hlt
    refine ⟨?_, ?_, ?_, ?_, ?_⟩
    · unfold replace
      rw [if_neg hm1, if_neg hm2, if_pos rfl]
      simp only [hidx]
      rw [if_neg (by omega)]
      have h1 : sliceTo text 1 = some (text.take 1) := by
        unfold sliceTo
        rw [if_pos (by constructor <;> omega)]
        rfl
      have h2 : Repeat 42 ((atPos : Int) - 1) = some (List.replicate (atPos - 1) 42) := by
        unfold Repeat
        rw [if_neg (by omega)]
        congr 2
        omega
      have h3 : sliceFrom text (atPos : Int) = some (text.drop atPos) := by
        unfold sliceFrom
        rw [if_pos (by constructor <;> omega)]
        rfl
      rw [h1, h2, h3]
      rfl
    · simp only [List.length_append, List.length_take, List.length_replicate, List.length_drop]
      omega
    · simp only [List.length_take]
      omega
    · have hget : text[atPos] = 64 := by
        have := List.indexOf_get (l := text) (a := 64) hlt
        simp only [hidx2] at this
        simpa using this
      rw [List.drop_eq_getElem_cons hlen, hget]
    · intro hascii
      have h1 : runes text = text.take atPos ++ runes (text.drop atPos) := by
        conv_lhs => rw [← List.take_append_drop atPos text]
        exact runes_ascii_append _ _ hascii
      have hhead : ∀ b ∈ text.take 1 ++ List.replicate (atPos - 1) 42, b < 128 := by
        intro b hb
        rcases List.mem_append.1 hb with h | h
        · exact hascii b (List.take_subset_take_left text (by omega) h)
        · rw [List.eq_of_mem_replicate h]
          omega
      have h2 : runes (text.take 1 ++ List.replicate (atPos - 1) 42 ++ text.drop atPos) =
          text.take 1 ++ List.replicate (atPos - 1) 42 ++ runes (text.drop atPos) :=
        runes_ascii_append _ _ hhead
      refine ⟨h1, h2, ?_, ?_⟩
      · rw [h1, h2]
        simp only [List.length_append, List.length_take, List.length_replicate]
        omega
      · rw [h1, h2]
        cases text with
        | nil => simp at hlen
        | cons b rest =>
          cases atPos with
          | zero => omega
          | succ n => simp
  · intro hidx
    unfold replace
    rw [if_neg hm1, if_neg hm2, if_pos rfl]
    simp only [hidx, if_true]

/-- Witness of C9 (amended) at the two examples of the specification. -/
theorem C9_mask_email_witness :
    planBr.cfg.Mode = str "mask" ∧
    Index (str "ab@example.com") 64 = 2 ∧
    replace exampleLib planBr (str "email") (str "ab@example.com") = some (str "a*@example.com") ∧
    Index (str "a@example.com") 64 ≤ 1 ∧
    replace exampleLib planBr (str "email") (str "a@example.com") = some (str "<EMAIL>") :=
  ⟨by decide, by decide,
    ((C9_mask_email exampleLib planBr (str "ab@example.com") (by decide)).1 2 (by decide)
      (by decide)).1,
    by decide,
    (C9_mask_email exampleLib planBr (str "a@example.com") (by decide)).2 (by decide)⟩

end Redact
